import Mathlib

/-!
Verification of the chopsticks rule engine (repository N8Brooks/chopsticks).

The repository contains two historical iterations of the same game engine:

* a rotating-queue model (`src/chopsticks_state.rs`): the roster is a
  `VecDeque<Player>`, the front player is the mover, eliminated players are
  removed, and every successful move rotates the queue one step;
* a fixed-array model (`src/state/mod.rs`): `players` is a fixed array that
  never shrinks, the mover is designated by an index `i`, and elimination is
  a derived predicate (last hand equals zero).

Both are embedded below, together with the action serialisation code
(`src/state/action.rs` and `src/chopsticks.rs`), the legal-move enumerators,
the driver's ranking loop (`src/game/mod.rs`), and the decision strategies
(`src/controller/random.rs`, `src/controller/pure_monte_carlo.rs`,
`src/strategies/pure_monte_carlo.rs`).  Machine integers (`u32`, `usize`)
are embedded as `Nat`; the wrap points are explicit `% ROLLOVER`
computations in the source and are kept as such.
-/

/-! ## Rotating-queue model (`src/chopsticks_state.rs`) -/

namespace CS

/-- A player of the rotating-queue model: an immutable id and a growable
vector of hand values (`Vec<u32>` in the source). -/
structure CPlayer where
  id : Nat
  hands : List Nat
  deriving Repr, DecidableEq

/-- `ChopsticksState`: roster (front player moves), hands per player and the
rollover modulus. -/
structure CState where
  players : List CPlayer
  nHands : Nat
  rollover : Nat
  deriving Repr, DecidableEq

inductive AttackError where
  | PlayerIndexOutOfBounds
  | HandIndexOutOfBounds
  | HandIsNotAlive
  deriving Repr, DecidableEq

inductive SplitError where
  | MoveWithoutChange
  | InvalidHandLen
  | InvalidTotalRollover
  | InvalidFingerValue
  deriving Repr, DecidableEq

/-- `Player::is_eliminated`: the last (largest, when sorted) hand is zero.
The source panics on an empty hand vector; an empty vector is mapped to
`true` here and never arises in the theorems below. -/
def isEliminated (p : CPlayer) : Bool :=
  p.hands.getLastD 0 == 0

/-- Ascending sort of a hand vector (`sort_unstable` in the source). -/
def sortHands (l : List Nat) : List Nat :=
  l.insertionSort (fun a b => a ≤ b)

/-- `ChopsticksState::iterate_turn`: rotate the roster one step to the left
(the front player moves to the back). -/
def iterateTurn (s : CState) : CState :=
  { s with players := s.players.rotate 1 }

/-- Indexing a hand vector; the source (`hands[a]`) panics out of range,
the theorems below only use in-range indices. -/
def handAt (hands : List Nat) (k : Nat) : Nat :=
  hands.getD k 0

/-- `ChopsticksState::attack`: the mover (front player) attacks hand `b` of
the player `i` seats ahead with its own hand `a`.  The defender's hand
receives `(defender + attacker) % rollover`, the defender's hands are
re-sorted, an eliminated defender is removed, and the roster rotates. -/
def attack (s : CState) (i a b : Nat) : Except AttackError CState :=
  if i = 0 ∨ s.players.length ≤ i then
    .error .PlayerIndexOutOfBounds
  else if s.nHands ≤ a ∨ s.nHands ≤ b then
    .error .HandIndexOutOfBounds
  else
    let attacker := handAt (s.players.getD 0 ⟨0, []⟩).hands a
    let defendingPlayer := s.players.getD i ⟨0, []⟩
    let defender := handAt defendingPlayer.hands b
    if attacker = 0 ∨ defender = 0 then
      .error .HandIsNotAlive
    else
      let newHands := sortHands (defendingPlayer.hands.set b ((defender + attacker) % s.rollover))
      let newDefender : CPlayer := { defendingPlayer with hands := newHands }
      let roster := s.players.set i newDefender
      let roster := if isEliminated newDefender then roster.eraseIdx i else roster
      .ok (iterateTurn { s with players := roster })

/-- `ChopsticksState::split`: the mover replaces its hand vector by the
sorted `newHands`, provided the sorted vector differs from the current one,
conserves the total and every value lies in `[1, rollover)`.  Note that the
length of `newHands` is never validated. -/
def split (s : CState) (newHands : List Nat) : Except SplitError CState :=
  let nh := sortHands newHands
  let mover := s.players.getD 0 ⟨0, []⟩
  if mover.hands = nh then
    .error .MoveWithoutChange
  else if nh.sum ≠ mover.hands.sum then
    .error .InvalidTotalRollover
  else if nh.any (fun h => ¬ (1 ≤ h ∧ h < s.rollover)) then
    .error .InvalidFingerValue
  else
    .ok (iterateTurn { s with players := s.players.set 0 { mover with hands := nh } })

/-- The default builder configuration (`Chopsticks::default().build()`):
two players, two hands, rollover 5, one initial finger. -/
def initial : CState :=
  { players := [⟨0, [1, 1]⟩, ⟨1, [1, 1]⟩], nHands := 2, rollover := 5 }

/-- The defender record produced inside `ChopsticksState::attack` (same id,
hand `b` updated to `(defender + attacker) % rollover`, hands re-sorted);
named so that theorems can refer to it. -/
def attackedDefender (s : CState) (i a b : Nat) : CPlayer :=
  let mover := s.players.getD 0 ⟨0, []⟩
  let dp := s.players.getD i ⟨0, []⟩
  ⟨dp.id, sortHands (dp.hands.set b ((handAt dp.hands b + handAt mover.hands a) % s.rollover))⟩

end CS

/-! ## Fixed-array model (`src/state/mod.rs`, `N_HANDS = 2` in the source) -/

namespace FS

/-- `Player<N, T>` of the fixed-array model: id plus exactly two hands
(`[u32; N_HANDS]` with `N_HANDS = 2`). -/
structure FPlayer where
  id : Nat
  hands : Nat × Nat
  deriving Repr, DecidableEq

/-- `State<N, T>`: mover index `i` and the fixed roster (players are never
removed). -/
structure FState where
  i : Nat
  players : List FPlayer
  deriving Repr, DecidableEq

inductive AttackError where
  | PlayerIndexOutOfBounds
  | HandIndexOutOfBounds
  | PlayerAttackSelf
  | HandIsNotAlive
  deriving Repr, DecidableEq

inductive SplitError where
  | ImproperContext
  | MoveWithoutChange
  | InvalidTotalFingers
  | InvalidFingerValue
  deriving Repr, DecidableEq

inductive ActionError where
  | GameIsOver
  | WrongTurn
  | AttackError (e : AttackError)
  | SplitError (e : SplitError)
  deriving Repr, DecidableEq

/-- Read hand `k` of a two-hand array (`hands[k]`, `k < 2` in the source). -/
def handAt (h : Nat × Nat) (k : Nat) : Nat :=
  if k = 0 then h.1 else h.2

/-- Write hand `k` of a two-hand array. -/
def setHand (h : Nat × Nat) (k : Nat) (v : Nat) : Nat × Nat :=
  if k = 0 then (v, h.2) else (h.1, v)

/-- `Player::is_eliminated`: the last entry of the hand array is zero. -/
def isEliminated (p : FPlayer) : Bool :=
  p.hands.2 == 0

def getPlayer (s : FState) (k : Nat) : FPlayer :=
  s.players.getD k ⟨0, (0, 0)⟩

/-- `Player::alive_fingers_indexes`: indices remaining after skipping the
leading zero-valued hands (`skip_while`), for a two-hand array. -/
def aliveFingersIndexes (h : Nat × Nat) : List Nat :=
  if h.1 = 0 then (if h.2 = 0 then [] else [1]) else [0, 1]

/-- `State::iter_player_indexes`: indices of non-eliminated players. -/
def aliveIndexes (s : FState) : List Nat :=
  (List.range s.players.length).filter (fun k => ¬ isEliminated (getPlayer s k))

def aliveCount (s : FState) : Nat :=
  (aliveIndexes s).length

/-- `State::play_iterate_turn`: when at least two players remain
(status `Turn`), the mover index becomes the `(i+1)`-th element of the
cyclic alive-index list; note that `i` is the raw array index, as in the
source (`.cycle().nth(self.i + 1)`).  With fewer than two alive players the
index is left unchanged (the source's guard; an empty roster panics in the
source and never arises below). -/
def playIterateTurn (s : FState) : FState :=
  if 2 ≤ aliveCount s then
    { s with i := (aliveIndexes s).getD ((s.i + 1) % aliveCount s) 0 }
  else s

/-- `State::undo_iterate_turn`: the reversed-cycle analogue,
`.rev().cycle().nth(N_PLAYERS - self.i)`. -/
def undoIterateTurn (s : FState) : FState :=
  if 2 ≤ aliveCount s then
    { s with
      i := (aliveIndexes s).reverse.getD ((s.players.length - s.i) % aliveCount s) 0 }
  else s

/-- `State::play_attack`: player `i` attacks hand `b` of player `j` with
hand `a`; the defending hand becomes `(defender + attacker) % R` (no
re-sorting in this model) and the turn advances. -/
def playAttack (R : Nat) (s : FState) (i j a b : Nat) : Except AttackError FState :=
  if s.players.length ≤ i ∨ s.players.length ≤ j then
    .error .PlayerIndexOutOfBounds
  else if 2 ≤ a ∨ 2 ≤ b then
    .error .HandIndexOutOfBounds
  else if i = j then
    .error .PlayerAttackSelf
  else
    let attacker := handAt (getPlayer s i).hands a
    let defender := handAt (getPlayer s j).hands b
    if attacker = 0 ∨ defender = 0 then
      .error .HandIsNotAlive
    else
      let newHands := setHand (getPlayer s j).hands b ((defender + attacker) % R)
      let s := { s with players := s.players.set j { getPlayer s j with hands := newHands } }
      .ok (playIterateTurn s)

/-- `State::undo_attack`: restores the defending hand with
`(defender + (R - attacker)) % R` and steps the turn backwards. -/
def undoAttack (R : Nat) (s : FState) (i j a b : Nat) : Except AttackError FState :=
  if s.players.length ≤ i ∨ s.players.length ≤ j then
    .error .PlayerIndexOutOfBounds
  else if 2 ≤ a ∨ 2 ≤ b then
    .error .HandIndexOutOfBounds
  else if i = j then
    .error .PlayerAttackSelf
  else
    let attacker := handAt (getPlayer s i).hands a
    let defender := handAt (getPlayer s j).hands b
    let updatedDefender := (defender + (R - attacker)) % R
    if updatedDefender = 0 then
      .error .HandIsNotAlive
    else
      let newHands := setHand (getPlayer s j).hands b updatedDefender
      let s := { s with players := s.players.set j { getPlayer s j with hands := newHands } }
      .ok (undoIterateTurn s)

/-- Ascending comparison view of a two-hand array
(`hands.iter().sorted()` in the source). -/
def sortPair (h : Nat × Nat) : Nat × Nat :=
  if h.1 ≤ h.2 then h else (h.2, h.1)

def sumPair (h : Nat × Nat) : Nat :=
  h.1 + h.2

/-- `State::play_split`: player `i` replaces hands `hands0` (which must be
its current hands) by `hands1`; same-multiset, total-changing and
out-of-range replacements are rejected. -/
def playSplit (R : Nat) (s : FState) (i : Nat) (hands0 hands1 : Nat × Nat) :
    Except SplitError FState :=
  if hands0 ≠ (getPlayer s i).hands then
    .error .ImproperContext
  else if sortPair hands0 = sortPair hands1 then
    .error .MoveWithoutChange
  else if sumPair hands0 ≠ sumPair hands1 then
    .error .InvalidTotalFingers
  else if ¬ (1 ≤ hands1.1 ∧ hands1.1 < R ∧ 1 ≤ hands1.2 ∧ hands1.2 < R) then
    .error .InvalidFingerValue
  else
    .ok (playIterateTurn { s with players := s.players.set i { getPlayer s i with hands := hands1 } })

/-- `State::undo_split`: the mirror image of `play_split` (checks that the
current hands are `hands1`, that `hands0` is in range, restores `hands0`). -/
def undoSplit (R : Nat) (s : FState) (i : Nat) (hands0 hands1 : Nat × Nat) :
    Except SplitError FState :=
  if hands1 ≠ (getPlayer s i).hands then
    .error .ImproperContext
  else if sortPair hands0 = sortPair hands1 then
    .error .MoveWithoutChange
  else if sumPair hands0 ≠ sumPair hands1 then
    .error .InvalidTotalFingers
  else if ¬ (1 ≤ hands0.1 ∧ hands0.1 < R ∧ 1 ≤ hands0.2 ∧ hands0.2 < R) then
    .error .InvalidFingerValue
  else
    .ok (undoIterateTurn { s with players := s.players.set i { getPlayer s i with hands := hands0 } })

/-- Game action of the fixed-array model, as consumed by
`State::play_action` (variant fields as matched there). -/
inductive GAction where
  | attack (i j a b : Nat)
  | splitA (i : Nat) (hands0 hands1 : Nat × Nat)
  deriving Repr, DecidableEq

/-- `Action::get_i`: the acting player of an action. -/
def GAction.getI : GAction → Nat
  | .attack i _ _ _ => i
  | .splitA i _ _ => i

/-- `State::iter_attack_actions`: for every other player (ascending array
order, skipping the mover), the cartesian product of the mover's alive hand
indices with the defender's alive hand indices. -/
def iterAttackActions (s : FState) : List GAction :=
  ((List.range s.players.length).filter (fun j => s.i ≠ j)).flatMap
    (fun j =>
      (aliveFingersIndexes (getPlayer s s.i).hands).flatMap
        (fun a =>
          (aliveFingersIndexes (getPlayer s j).hands).map
            (fun b => GAction.attack s.i j a b)))

/-- `State::iter_split_actions`: candidate left values from
`max(total % R + 1, 1)` to `total / 2`, each producing `[a, total - a]`,
no-op splits filtered out. -/
def iterSplitActions (R : Nat) (s : FState) : List GAction :=
  let total := sumPair (getPlayer s s.i).hands
  let start := max (total % R + 1) 1
  let stop := total / 2
  (((List.range (stop + 1 - start)).map (fun k => start + k)).map
      (fun a => (a, total - a))).filter
    (fun h => sortPair (getPlayer s s.i).hands ≠ sortPair h)
    |>.map (fun h => GAction.splitA s.i (getPlayer s s.i).hands h)

/-- `State::iter_actions`: attack actions then split actions. -/
def iterActions (R : Nat) (s : FState) : List GAction :=
  iterAttackActions s ++ iterSplitActions R s

/-- `State::play_action`: rejects a finished game and an out-of-turn actor,
then dispatches. -/
def playAction (R : Nat) (s : FState) (act : GAction) : Except ActionError FState :=
  if aliveCount s ≤ 1 then
    .error .GameIsOver
  else if act.getI ≠ s.i then
    .error .WrongTurn
  else
    match act with
    | .attack i j a b => (playAttack R s i j a b).mapError .AttackError
    | .splitA i h0 h1 => (playSplit R s i h0 h1).mapError .SplitError

/-- The initial state of `StateSpace::get_initial_state` for two players
with `f` initial fingers per hand. -/
def mkInitial (f : Nat) : FState :=
  { i := 0, players := [⟨0, (f, f)⟩, ⟨1, (f, f)⟩] }

end FS

/-! ## Action serialisation (`src/state/action.rs`) -/

namespace SA

/-- `Action<N, T>` as serialised by `src/state/action.rs`:
`Attack { i, a, b }` or `Split { hands }` with two hands. -/
inductive SAction where
  | attack (i a b : Nat)
  | splitA (hands : Nat × Nat)
  deriving Repr, DecidableEq

/-- Modelled from the spec: the trait constant `ATTACK_SERIAL_BASE` used by
`Action::serialize` is not defined in any file under `src/`; §4.2 of the
spec fixes it as `ATTACK_BASE = N_PLAYERS * N_HANDS * N_HANDS`, which also
matches the sibling constant `SPLIT_OFFSET = (N * N_HANDS * N_HANDS)` in
`src/state_space.rs`. -/
def attackSerialBase (nPlayers nHands : Nat) : Nat :=
  nPlayers * nHands * nHands

/-- `Action::serialize`: attacks fold `i`, `a`, `b` with factors
`N_PLAYERS` then `N_HANDS`; splits add the base-`ROLLOVER` hand encoding to
`ATTACK_SERIAL_BASE`. -/
def serialize (nPlayers nHands R : Nat) : SAction → Nat
  | .attack i a b => (i * nPlayers + a) * nHands + b
  | .splitA hands => (0 * R + hands.1) * R + hands.2 + attackSerialBase nPlayers nHands

/-- One write of the split-deserialisation loop (`hands[i] = serial % R`);
the loop only ever writes indices `1` and `0`. -/
def setDigit (h : Nat × Nat) (k v : Nat) : Nat × Nat :=
  if k = 0 then (v, h.2) else (h.1, v)

/-- The `while split_serial > 0` loop of `Action::from_serial`, with an
explicit fuel argument bounding the iteration count: each iteration divides
the serial by `R`, so `fuel = serial` iterations suffice whenever `2 ≤ R`
(for `R ≤ 1` the source loop would not terminate; no such configuration is
instantiated). -/
def decodeLoop (R : Nat) : Nat → Nat → Nat → (Nat × Nat) → Nat × Nat
  | 0, _, _, h => h
  | fuel + 1, serial, k, h =>
    if serial = 0 then h
    else decodeLoop R fuel (serial / R) (k - 1) (setDigit h k (serial % R))

/-- `Action::from_serial`: serials below `ATTACK_SERIAL_BASE` decode as
attacks by reversed div/mod, the rest as splits via `decodeLoop`. -/
def fromSerial (nPlayers nHands R serial : Nat) : SAction :=
  if serial < attackSerialBase nPlayers nHands then
    .attack (serial / nHands / nPlayers) (serial / nHands % nPlayers) (serial % nHands)
  else
    let splitSerial := serial - attackSerialBase nPlayers nHands
    .splitA (decodeLoop R splitSerial splitSerial (nHands - 1) (0, 0))

end SA

/-! ## Builder serialisation (`src/chopsticks.rs`) -/

namespace CB

/-- The `Chopsticks<T>` builder configuration; `splitOffset` is the derived
field `n_players * n_hands * n_hands`. -/
structure Config where
  nPlayers : Nat
  nHands : Nat
  rollover : Nat
  splitOffset : Nat
  deriving Repr, DecidableEq

/-- `Chopsticks::<u32>::default()`: 2 players, 2 hands, rollover 5,
`split_offset = 2 * 2 * 2`. -/
def defaultConfig : Config :=
  { nPlayers := 2, nHands := 2, rollover := 5, splitOffset := 8 }

/-- `Chopsticks::serialize_hands`: base-`rollover` fold, most significant
hand first. -/
def serializeHands (c : Config) (hands : List Nat) : Nat :=
  hands.foldl (fun serial fingers => serial * c.rollover + fingers) 0

/-- An action of the rotating-queue model (`src/chopsticks_state.rs`:
`Action::Attack { i, a, b } | Action::Split { new_hands }`). -/
inductive CAction where
  | attack (i a b : Nat)
  | splitA (newHands : List Nat)
  deriving Repr, DecidableEq

/-- `Chopsticks::serialize_action`: attacks fold `i`, `a`, `b` with factor
`n_hands` twice; splits multiply the hand encoding by `split_offset`. -/
def serializeAction (c : Config) : CAction → Nat
  | .attack i a b => (i * c.nHands + a) * c.nHands + b
  | .splitA newHands => serializeHands c newHands * c.splitOffset

end CB

/-! ## Strategies (`src/controller/random.rs`, `pure_monte_carlo.rs`) -/

namespace MC

/-- `Random::get_action`: collect the legal actions and pick the index
returned by the injected randomness source; the source is modelled as an
arbitrary `Nat` reduced modulo the sequence length
(`SliceRandom::choose_mut` on a non-empty slice).  Returns `none` exactly
when the action list is empty (the `expect("multiple actions")` panic). -/
def randomChoice (R : Nat) (s : FS.FState) (k : Nat) : Option FS.GAction :=
  let actions := FS.iterActions R s
  actions.get? (k % actions.length)

/-- Tail of Rust's `Iterator::min_by_key`: keep the current best unless a
later element's key is strictly smaller, so the first minimum wins. -/
def minByKeyAux (f : α → Nat) : α → List α → α
  | best, [] => best
  | best, x :: xs => minByKeyAux f (if f x < f best then x else best) xs

/-- `Iterator::min_by_key` (first minimal element, `none` on empty). -/
def minByKey (f : α → Nat) : List α → Option α
  | [] => none
  | x :: xs => some (minByKeyAux f x xs)

/-- The `n_sims` rollout observations for one candidate action; `r` is the
(externally random) rank recorded by the `k`-th rollout. -/
def rolloutRanks (nSims : Nat) (r : Nat → Nat) : List Nat :=
  (List.range nSims).map r

/-- Aggregation of `src/controller/pure_monte_carlo.rs`: `.max()` over the
rollout ranks.  For `0 < n_sims` Rust's `Option<usize>` maximum is
`Some` of the numeric maximum, and `min_by_key` compares the numeric
values, so the fold below is the same key. -/
def aggMax (nSims : Nat) (r : Nat → Nat) : Nat :=
  (rolloutRanks nSims r).foldl max 0

/-- Aggregation of `src/strategies/pure_monte_carlo.rs`: `.sum()` over the
rollout ranks. -/
def aggSum (nSims : Nat) (r : Nat → Nat) : Nat :=
  (rolloutRanks nSims r).sum

/-- `PureMonteCarlo::get_action` (max-aggregation variant): the legal action
minimising the aggregate, first wins on ties.  `r act k` is the rank
observed by rollout `k` of action `act`. -/
def getActionMCMax (R nSims : Nat) (r : FS.GAction → Nat → Nat) (s : FS.FState) :
    Option FS.GAction :=
  minByKey (fun act => aggMax nSims (r act)) (FS.iterActions R s)

/-- `PureMonteCarlo::get_action` (sum-aggregation variant). -/
def getActionMCSum (R nSims : Nat) (r : FS.GAction → Nat → Nat) (s : FS.FState) :
    Option FS.GAction :=
  minByKey (fun act => aggSum nSims (r act)) (FS.iterActions R s)

end MC

/-! ## Game driver (`src/game/mod.rs`) -/

namespace GD

/-- `State::is_loop_state` for the only supported configuration
(2 players, rollover 5, 1 initial finger): hands `{0,1}` and `{0,2}` split
across the two players, in either order. -/
def isLoopState (s : FS.FState) : Bool :=
  (FS.sortPair (FS.getPlayer s 0).hands = (0, 1) ∧ FS.sortPair (FS.getPlayer s 1).hands = (0, 2))
  ∨ (FS.sortPair (FS.getPlayer s 0).hands = (0, 2) ∧ FS.sortPair (FS.getPlayer s 1).hands = (0, 1))

/-- `Game::get_player_ids`: the `HashSet` of ids of every player record in
the state (the fixed array — eliminated players included). -/
def playerIds (s : FS.FState) : List Nat :=
  (s.players.map (fun p => p.id)).dedup

/-- The per-iteration rank write of `Game::get_rankings`:
`for id in player_ids { ranks[id] = n_players }`. -/
def updateRanks (ranks : List Nat) (ids : List Nat) : List Nat :=
  ids.foldl (fun rs id => rs.set id ids.length) ranks

/-- The loop of `Game::get_rankings`, driven by the (externally chosen)
list of actions the controller would return: while the status is `Turn` and
the position is not the known loop state, play the next action and write
the current roster size into every present id's rank.  The source's
`expect("valid action")` panic on an illegal action is modelled as
stopping. -/
def getRankingsLoop (R : Nat) : FS.FState → List FS.GAction → List Nat → List Nat
  | _, [], ranks => ranks
  | s, act :: rest, ranks =>
    if 2 ≤ FS.aliveCount s ∧ ¬ isLoopState s then
      match FS.playAction R s act with
      | .ok s2 => getRankingsLoop R s2 rest (updateRanks ranks (playerIds s2))
      | .error _ => ranks
    else ranks

/-- `Game::get_rankings`: ranks start at the sentinel `N` for every id. -/
def getRankings (R : Nat) (s : FS.FState) (acts : List FS.GAction) : List Nat :=
  getRankingsLoop R s acts (List.replicate s.players.length s.players.length)

end GD

/-! ## Spec-side comparison definitions -/

namespace SpecSide

/-- Modelled from the spec: "the new mover is the next surviving player in
the prior rotation order (wrapping)" for the fixed-array model — the first
array index after the prior mover (cyclically) whose player is not
eliminated in the successor state. -/
def nextSurvivorIdx (s after : FS.FState) : Option Nat :=
  ((List.range s.players.length).map (fun d => (s.i + 1 + d) % s.players.length)).find?
    (fun k => ¬ FS.isEliminated (FS.getPlayer after k))

/-- Modelled from the spec: the same notion for the rotating-queue model —
scanning the prior roster from the seat after the mover (wrapping), the id
of the first player still present in the successor roster. -/
def nextSurvivingId (s after : CS.CState) : Option Nat :=
  ((s.players.drop 1 ++ s.players.take 1).find?
    (fun p => (after.players.map (fun q => q.id)).contains p.id)).map (fun p => p.id)

end SpecSide

/-! ## Reachability and the engine invariant (fixed-array model, shipped
two-player configuration) -/

namespace FS

/-- The engine invariant for the shipped two-player configuration: two
players, a valid mover index, every hand value below the rollover, and a
non-eliminated mover. -/
def Inv (R : Nat) (s : FState) : Prop :=
  s.players.length = 2 ∧ s.i < 2
    ∧ (∀ p ∈ s.players, p.hands.1 < R ∧ p.hands.2 < R)
    ∧ ¬ isEliminated (getPlayer s s.i)

/-- States reachable from the initial two-player position through
successful `play_action` calls. -/
inductive Reach (R f : Nat) : FState → Prop where
  | init : Reach R f (mkInitial f)
  | step {s act s2} : Reach R f s → playAction R s act = .ok s2 → Reach R f s2

end FS

/-! ## Claim theorems -/

deriving instance DecidableEq for Except

/-- C10: the rotating-queue `split` never returns `InvalidHandLen` — the
length of `new_hands` is not validated — and concretely, from the default
two-hand position `[1,1]`/`[1,1]`, splitting to the single hand `[2]`
succeeds and leaves the mover with a one-element hand vector. -/
theorem c10_split_length_unchecked :
    (∀ (s : CS.CState) (nh : List Nat),
        CS.split s nh ≠ .error CS.SplitError.InvalidHandLen)
    ∧ CS.split CS.initial [2]
        = .ok { players := [⟨1, [1, 1]⟩, ⟨0, [2]⟩], nHands := 2, rollover := 5 }
    ∧ ([2] : List Nat).length ≠ CS.initial.nHands := by
  refine ⟨fun s nh => ?_, by decide, by decide⟩
  unfold CS.split
  dsimp only
  split
  · exact fun h => by cases h
  · split
    · exact fun h => by cases h
    · split
      · exact fun h => by cases h
      · exact fun h => by cases h

/-- C4 (code bug): three successful attacks from the initial two-player
position leave player 1 with the unsorted hand array `(1, 0)`, which
`is_eliminated` classifies as eliminated even though hand 0 is alive —
the fixed-array `play_attack` never re-sorts the defender's hands,
contradicting the documented sorted-ascending invariant. -/
theorem c4_playAttack_breaks_sortedness :
    ((FS.playAttack 5 (FS.mkInitial 1) 0 1 1 1).bind
        (fun s => (FS.playAttack 5 s 1 0 1 1).bind
          (fun s2 => FS.playAttack 5 s2 0 1 1 1)))
      = .ok { i := 0, players := [⟨0, (1, 3)⟩, ⟨1, (1, 0)⟩] }
    ∧ FS.isEliminated ⟨1, (1, 0)⟩ = true
    ∧ FS.handAt ((1, 0) : Nat × Nat) 0 ≠ 0
    ∧ ¬ ((1, 0) : Nat × Nat).1 ≤ ((1, 0) : Nat × Nat).2 := by
  decide

/-- C2 counterexample: under the builder serialiser
`Chopsticks::serialize_action`, the split `[1,1]` receives serial
`encoding * ATTACK_BASE = 48`, not `ATTACK_BASE + encoding = 14`, and the
serial does not lie in the claimed split range `[8, 8 + 5^2)`. -/
theorem c2_builder_split_serial_mismatch :
    CB.serializeAction CB.defaultConfig (.splitA [1, 1]) = 48
    ∧ SA.attackSerialBase 2 2 + CB.serializeHands CB.defaultConfig [1, 1] = 14
    ∧ CB.serializeAction CB.defaultConfig (.splitA [1, 1])
        ≠ SA.attackSerialBase 2 2 + CB.serializeHands CB.defaultConfig [1, 1]
    ∧ ¬ (SA.attackSerialBase 2 2 ≤ 48 ∧ 48 < SA.attackSerialBase 2 2 + 5 ^ 2) := by
  decide

/-- C2 (amended): for `Action::serialize`/`Action::from_serial` of
`src/state/action.rs` at the shipped configuration (2 players, 2 hands,
rollover 5, attack base 8), attack serials follow the claimed formula and
lie in `[0, 8)`, split serials are `8 +` the base-5 hand encoding and lie
in `[8, 8 + 5^2)`, no two distinct valid actions share a serial, and
deserialisation inverts serialisation on every valid action. -/
theorem c2_state_action_layout :
    (∀ i < 2, ∀ a < 2, ∀ b < 2,
      SA.serialize 2 2 5 (.attack i a b) = (i * 2 + a) * 2 + b
      ∧ SA.serialize 2 2 5 (.attack i a b) < SA.attackSerialBase 2 2
      ∧ SA.fromSerial 2 2 5 (SA.serialize 2 2 5 (.attack i a b)) = .attack i a b)
    ∧ (∀ h0 < 5, ∀ h1 < 5,
      SA.serialize 2 2 5 (.splitA (h0, h1)) = SA.attackSerialBase 2 2 + (h0 * 5 + h1)
      ∧ SA.attackSerialBase 2 2 ≤ SA.serialize 2 2 5 (.splitA (h0, h1))
      ∧ SA.serialize 2 2 5 (.splitA (h0, h1)) < SA.attackSerialBase 2 2 + 5 ^ 2
      ∧ SA.fromSerial 2 2 5 (SA.serialize 2 2 5 (.splitA (h0, h1))) = .splitA (h0, h1))
    ∧ (∀ i < 2, ∀ a < 2, ∀ b < 2, ∀ i2 < 2, ∀ a2 < 2, ∀ b2 < 2,
      SA.serialize 2 2 5 (.attack i a b) = SA.serialize 2 2 5 (.attack i2 a2 b2) →
      (SA.SAction.attack i a b : SA.SAction) = .attack i2 a2 b2)
    ∧ (∀ i < 2, ∀ a < 2, ∀ b < 2, ∀ h0 < 5, ∀ h1 < 5,
      SA.serialize 2 2 5 (.attack i a b) ≠ SA.serialize 2 2 5 (.splitA (h0, h1)))
    ∧ (∀ h0 < 5, ∀ h1 < 5, ∀ h2 < 5, ∀ h3 < 5,
      SA.serialize 2 2 5 (.splitA (h0, h1)) = SA.serialize 2 2 5 (.splitA (h2, h3)) →
      (SA.SAction.splitA (h0, h1) : SA.SAction) = .splitA (h2, h3)) := by
  have hA : ∀ i < 2, ∀ a < 2, ∀ b < 2,
      SA.serialize 2 2 5 (.attack i a b) = (i * 2 + a) * 2 + b
      ∧ SA.serialize 2 2 5 (.attack i a b) < SA.attackSerialBase 2 2
      ∧ SA.fromSerial 2 2 5 (SA.serialize 2 2 5 (.attack i a b)) = .attack i a b := by
    decide
  have hS : ∀ h0 < 5, ∀ h1 < 5,
      SA.serialize 2 2 5 (.splitA (h0, h1)) = SA.attackSerialBase 2 2 + (h0 * 5 + h1)
      ∧ SA.attackSerialBase 2 2 ≤ SA.serialize 2 2 5 (.splitA (h0, h1))
      ∧ SA.serialize 2 2 5 (.splitA (h0, h1)) < SA.attackSerialBase 2 2 + 5 ^ 2
      ∧ SA.fromSerial 2 2 5 (SA.serialize 2 2 5 (.splitA (h0, h1))) = .splitA (h0, h1) := by
    decide
  refine ⟨hA, hS, ?_, ?_, ?_⟩
  · intro i hi a ha b hb i2 hi2 a2 ha2 b2 hb2 h
    have e1 := (hA i hi a ha b hb).2.2
    have e2 := (hA i2 hi2 a2 ha2 b2 hb2).2.2
    rw [← e1, ← e2, h]
  · intro i hi a ha b hb h0 H0 h1 H1 h
    have e1 := (hA i hi a ha b hb).2.2
    have e2 := (hS h0 H0 h1 H1).2.2.2
    have : (SA.SAction.attack i a b : SA.SAction) = .splitA (h0, h1) := by
      rw [← e1, ← e2, h]
    cases this
  · intro h0 H0 h1 H1 h2 H2 h3 H3 h
    have e1 := (hS h0 H0 h1 H1).2.2.2
    have e2 := (hS h2 H2 h3 H3).2.2.2
    rw [← e1, ← e2, h]

/-- C2 witness: a concrete instance of the amended layout theorem. -/
theorem c2_state_action_layout_witness :
    SA.fromSerial 2 2 5 (SA.serialize 2 2 5 (.attack 1 0 1)) = .attack 1 0 1
    ∧ SA.serialize 2 2 5 (.splitA (1, 1)) = SA.attackSerialBase 2 2 + 6 :=
  ⟨(c2_state_action_layout.1 1 (by decide) 0 (by decide) 1 (by decide)).2.2,
   (c2_state_action_layout.2.1 1 (by decide) 1 (by decide)).1⟩

/-- C3 counterexample: the initial two-player position is non-terminal
(two alive players) yet `iter_split_actions` yields nothing — hands `[1,1]`
admit no legal split, so a non-terminal position need not have one. -/
theorem c3_split_enumerator_can_be_empty :
    FS.iterSplitActions 5 (FS.mkInitial 1) = []
    ∧ 2 ≤ FS.aliveCount (FS.mkInitial 1) := by
  decide

/-- C7 counterexample: in the fixed-array model with three players, after
player 2 attacks player 0 (player 1 being eliminated), `play_iterate_turn`
keeps the mover at index 2 although the next surviving player in prior
rotation order is index 0. -/
theorem c7_fixed_model_wrong_next_mover :
    FS.playAttack 5 { i := 2, players := [⟨0, (1, 1)⟩, ⟨1, (0, 0)⟩, ⟨2, (1, 1)⟩] } 2 0 0 0
      = .ok { i := 2, players := [⟨0, (2, 1)⟩, ⟨1, (0, 0)⟩, ⟨2, (1, 1)⟩] }
    ∧ SpecSide.nextSurvivorIdx
        { i := 2, players := [⟨0, (1, 1)⟩, ⟨1, (0, 0)⟩, ⟨2, (1, 1)⟩] }
        { i := 2, players := [⟨0, (2, 1)⟩, ⟨1, (0, 0)⟩, ⟨2, (1, 1)⟩] } = some 0
    ∧ ({ i := 2, players := [⟨0, (2, 1)⟩, ⟨1, (0, 0)⟩, ⟨2, (1, 1)⟩] } : FS.FState).i ≠ 0 := by
  decide

/-- C9 counterexample: undo does not invert play.  A game-ending attack
leaves the mover index unchanged, but its undo rotates the turn backwards,
so the restored state has the wrong mover; and a split away from hands
containing a dead hand plays fine but its undo is rejected with
`InvalidFingerValue`. -/
theorem c9_undo_not_inverse :
    FS.playAttack 5 { i := 0, players := [⟨0, (1, 4)⟩, ⟨1, (0, 1)⟩] } 0 1 1 1
      = .ok { i := 0, players := [⟨0, (1, 4)⟩, ⟨1, (0, 0)⟩] }
    ∧ FS.undoAttack 5 { i := 0, players := [⟨0, (1, 4)⟩, ⟨1, (0, 0)⟩] } 0 1 1 1
      = .ok { i := 1, players := [⟨0, (1, 4)⟩, ⟨1, (0, 1)⟩] }
    ∧ ({ i := 1, players := [⟨0, (1, 4)⟩, ⟨1, (0, 1)⟩] } : FS.FState)
      ≠ { i := 0, players := [⟨0, (1, 4)⟩, ⟨1, (0, 1)⟩] }
    ∧ FS.playSplit 5 { i := 0, players := [⟨0, (0, 2)⟩, ⟨1, (1, 1)⟩] } 0 (0, 2) (1, 1)
      = .ok { i := 1, players := [⟨0, (1, 1)⟩, ⟨1, (1, 1)⟩] }
    ∧ FS.undoSplit 5 { i := 1, players := [⟨0, (1, 1)⟩, ⟨1, (1, 1)⟩] } 0 (0, 2) (1, 1)
      = .error FS.SplitError.InvalidFingerValue := by
  decide

/-! ### Helper lemmas about alive hands and alive players -/

theorem isEliminated_iff (p : FS.FPlayer) : FS.isEliminated p = true ↔ p.hands.2 = 0 := by
  simp [FS.isEliminated]

theorem two_alive_of_count {s : FS.FState} (hlen : s.players.length = 2)
    (halive : 2 ≤ FS.aliveCount s) :
    ¬ FS.isEliminated (FS.getPlayer s 0) = true ∧ ¬ FS.isEliminated (FS.getPlayer s 1) = true := by
  unfold FS.aliveCount FS.aliveIndexes at halive
  rw [hlen] at halive
  have hr : List.range 2 = [0, 1] := by decide
  rw [hr] at halive
  constructor
  · intro e0
    by_cases e1 : FS.isEliminated (FS.getPlayer s 1) = true
      <;> simp [e0, e1, List.filter] at halive
  · intro e1
    by_cases e0 : FS.isEliminated (FS.getPlayer s 0) = true
      <;> simp [e0, e1, List.filter] at halive

theorem aliveIndexes_two {s : FS.FState} (hlen : s.players.length = 2)
    (h0 : ¬ FS.isEliminated (FS.getPlayer s 0) = true)
    (h1 : ¬ FS.isEliminated (FS.getPlayer s 1) = true) :
    FS.aliveIndexes s = [0, 1] := by
  unfold FS.aliveIndexes
  rw [hlen]
  have hr : List.range 2 = [0, 1] := by decide
  rw [hr]
  simp [List.filter, h0, h1]

theorem aliveFingers_ne_nil {h : Nat × Nat} (hl : h.2 ≠ 0) :
    FS.aliveFingersIndexes h ≠ [] := by
  unfold FS.aliveFingersIndexes
  split <;> simp [hl]

theorem aliveFingers_mem_lt {h : Nat × Nat} {k : Nat}
    (hk : k ∈ FS.aliveFingersIndexes h) : k < 2 := by
  unfold FS.aliveFingersIndexes at hk
  by_cases h1 : h.1 = 0
  · by_cases h2 : h.2 = 0 <;> simp [h1, h2] at hk
    omega
  · simp [h1] at hk
    omega

theorem aliveFingers_val_ne {h : Nat × Nat} (halive : h.2 ≠ 0) {k : Nat}
    (hk : k ∈ FS.aliveFingersIndexes h) : FS.handAt h k ≠ 0 := by
  unfold FS.aliveFingersIndexes at hk
  unfold FS.handAt
  by_cases h1 : h.1 = 0
  · simp [h1, halive] at hk
    simp [hk]
    exact halive
  · simp [h1] at hk
    rcases hk with hk | hk
    · simp [hk]
      exact h1
    · simp [hk]
      exact halive

/-- C3 (amended): in any non-terminal two-player position with a valid
mover index, the attack enumerator is non-empty, hence the full legal
action sequence is non-empty and the Uniform Random selection (choosing any
index into the collected sequence) always succeeds; the split enumerator
alone may be empty. -/
theorem c3_random_never_fails (R : Nat) (s : FS.FState)
    (hlen : s.players.length = 2) (hi : s.i < 2)
    (halive : 2 ≤ FS.aliveCount s) :
    FS.iterAttackActions s ≠ []
    ∧ FS.iterActions R s ≠ []
    ∧ ∀ k, (MC.randomChoice R s k).isSome = true := by
  obtain ⟨h0, h1⟩ := two_alive_of_count hlen halive
  have hm : ¬ FS.isEliminated (FS.getPlayer s s.i) = true := by
    rcases (by omega : s.i = 0 ∨ s.i = 1) with h | h <;> rw [h] <;> assumption
  have hd : ¬ FS.isEliminated (FS.getPlayer s (1 - s.i)) = true := by
    rcases (by omega : s.i = 0 ∨ s.i = 1) with h | h <;> rw [h]
    · simpa using h1
    · simpa using h0
  have hm2 : (FS.getPlayer s s.i).hands.2 ≠ 0 :=
    fun hc => hm ((isEliminated_iff _).mpr hc)
  have hd2 : (FS.getPlayer s (1 - s.i)).hands.2 ≠ 0 :=
    fun hc => hd ((isEliminated_iff _).mpr hc)
  obtain ⟨a, ha⟩ := List.exists_mem_of_ne_nil _ (aliveFingers_ne_nil hm2)
  obtain ⟨b, hb⟩ := List.exists_mem_of_ne_nil _ (aliveFingers_ne_nil hd2)
  have hact : FS.GAction.attack s.i (1 - s.i) a b ∈ FS.iterAttackActions s := by
    unfold FS.iterAttackActions
    refine List.mem_flatMap.mpr ⟨1 - s.i, ?_, ?_⟩
    · refine List.mem_filter.mpr ⟨?_, ?_⟩
      · rw [hlen]
        have : 1 - s.i < 2 := by omega
        exact List.mem_range.mpr this
      · have : s.i ≠ 1 - s.i := by omega
        exact decide_eq_true this
    · exact List.mem_flatMap.mpr ⟨a, ha, List.mem_map.mpr ⟨b, hb, rfl⟩⟩
  have hattack : FS.iterAttackActions s ≠ [] := List.ne_nil_of_mem hact
  have hactions : FS.iterActions R s ≠ [] := by
    unfold FS.iterActions
    intro hc
    exact hattack (List.append_eq_nil.mp hc).1
  refine ⟨hattack, hactions, fun k => ?_⟩
  unfold MC.randomChoice
  have hpos : 0 < (FS.iterActions R s).length := List.length_pos.mpr hactions
  have hlt : k % (FS.iterActions R s).length < (FS.iterActions R s).length :=
    Nat.mod_lt _ hpos
  rw [List.get?_eq_get hlt]
  rfl

/-- C3 witness: the amended theorem applied to the initial position. -/
theorem c3_random_never_fails_witness :
    FS.iterActions 5 (FS.mkInitial 1) ≠ []
    ∧ (MC.randomChoice 5 (FS.mkInitial 1) 7).isSome = true :=
  ⟨(c3_random_never_fails 5 (FS.mkInitial 1) (by decide) (by decide) (by decide)).2.1,
   (c3_random_never_fails 5 (FS.mkInitial 1) (by decide) (by decide) (by decide)).2.2 7⟩

/-! ### Helper lemmas for the transition functions -/

theorem playIterateTurn_players (s : FS.FState) :
    (FS.playIterateTurn s).players = s.players := by
  unfold FS.playIterateTurn
  split <;> rfl

theorem undoIterateTurn_players (s : FS.FState) :
    (FS.undoIterateTurn s).players = s.players := by
  unfold FS.undoIterateTurn
  split <;> rfl

theorem handAt_setHand_self (h : Nat × Nat) (b v : Nat) :
    FS.handAt (FS.setHand h b v) b = v := by
  by_cases hb : b = 0 <;> simp [FS.handAt, FS.setHand, hb]

theorem handAt_setHand_other (h : Nat × Nat) {b b2 : Nat} (v : Nat)
    (hb : b < 2) (hb2 : b2 < 2) (hne : b2 ≠ b) :
    FS.handAt (FS.setHand h b v) b2 = FS.handAt h b2 := by
  by_cases h0 : b = 0
  · have h2 : b2 = 1 := by omega
    simp [FS.handAt, FS.setHand, h0, h2]
  · have h2 : b2 = 0 := by omega
    simp [FS.handAt, FS.setHand, h0, h2]

theorem rotate_one_cons (p : α) (xs : List α) : (p :: xs).rotate 1 = xs ++ [p] := by
  cases xs with
  | nil => simp [List.rotate]
  | cons q ys =>
    have h1 : 1 % (ys.length + 2) = 1 := Nat.mod_eq_of_lt (by omega)
    simp [List.rotate, h1]

theorem getD_set_self {l : List α} {j : Nat} (x d : α) (h : j < l.length) :
    (l.set j x).getD j d = x := by
  simp [List.getD, List.getElem?_set_eq_of_lt x h]

/-- Auxiliary: last element of a rotated roster after an in-place update
at a positive index (mover stays at the front before rotation). -/
theorem getLast_rotate_set (p : α) (rest : List α) (c : Nat) (x : α) :
    ((((p :: rest).set (c + 1) x)).rotate 1).getLast? = some p := by
  have h1 : (p :: rest).set (c + 1) x = p :: rest.set c x := rfl
  rw [h1, rotate_one_cons, List.getLast?_concat]

/-- Auxiliary: same, when the updated entry is then removed. -/
theorem getLast_rotate_set_erase (p : α) (rest : List α) (c : Nat) (x : α) :
    (((((p :: rest).set (c + 1) x)).eraseIdx (c + 1)).rotate 1).getLast? = some p := by
  have h1 : ((p :: rest).set (c + 1) x).eraseIdx (c + 1) = p :: (rest.set c x).eraseIdx c := rfl
  rw [h1, rotate_one_cons, List.getLast?_concat]

/-- Auxiliary: the updated entry sits at index `c` after the rotation. -/
theorem get_rotate_set (p : α) (rest : List α) (c : Nat) (x : α) (hc : c < rest.length) :
    ((((p :: rest).set (c + 1) x)).rotate 1).get? c = some x := by
  have h1 : (p :: rest).set (c + 1) x = p :: rest.set c x := rfl
  rw [h1, rotate_one_cons]
  rw [List.get?_append (by simpa using hc)]
  exact List.get?_set_eq_of_lt _ (by simpa using hc)

/-- C1: for every accepted attack, in the fixed-array model the defending
hand `b` becomes `(defender + attacker) % ROLLOVER` while every other
player record and the defender\x27s other hand are unchanged; in the
rotating-queue model the mover\x27s record (hands included) is unchanged and
moves to the back of the roster, the updated value is present in the
re-sorted defender, and the defender — unless eliminated — sits at offset
`i - 1` with exactly the re-sorted updated hands. -/
theorem c1_attack_wrap_arithmetic
    (R : Nat) (s s2 : FS.FState) (i j a b : Nat)
    (hok : FS.playAttack R s i j a b = .ok s2)
    (t : CS.CState) (t2 : CS.CState) (ci ca cb : Nat)
    (hwf : (t.players.getD ci ⟨0, []⟩).hands.length = t.nHands)
    (hok2 : CS.attack t ci ca cb = .ok t2) :
    (FS.handAt (FS.getPlayer s2 j).hands b
        = (FS.handAt (FS.getPlayer s j).hands b + FS.handAt (FS.getPlayer s i).hands a) % R
      ∧ (∀ k, k ≠ j → s2.players.get? k = s.players.get? k)
      ∧ (∀ b2, b2 < 2 → b2 ≠ b →
          FS.handAt (FS.getPlayer s2 j).hands b2 = FS.handAt (FS.getPlayer s j).hands b2))
    ∧ (t2.players.getLast? = some (t.players.getD 0 ⟨0, []⟩)
      ∧ (CS.handAt (t.players.getD ci ⟨0, []⟩).hands cb
            + CS.handAt (t.players.getD 0 ⟨0, []⟩).hands ca) % t.rollover
          ∈ (CS.attackedDefender t ci ca cb).hands
      ∧ (CS.isEliminated (CS.attackedDefender t ci ca cb) = true
        ∨ t2.players.get? (ci - 1) = some (CS.attackedDefender t ci ca cb))) := by
  constructor
  · -- fixed-array model
    unfold FS.playAttack at hok
    split at hok
    · cases hok
    rename_i hg1
    split at hok
    · cases hok
    rename_i hg2
    split at hok
    · cases hok
    rename_i hg3
    dsimp only at hok
    split at hok
    · cases hok
    rename_i hg4
    cases hok
    push_neg at hg1 hg2
    have hj : j < s.players.length := hg1.2
    have hb : b < 2 := hg2.2
    refine ⟨?_, ?_, ?_⟩
    · unfold FS.getPlayer
      rw [playIterateTurn_players]
      dsimp only
      rw [getD_set_self _ _ hj]
      exact handAt_setHand_self _ _ _
    · intro k hk
      rw [playIterateTurn_players]
      dsimp only
      exact List.get?_set_ne _ _ (Ne.symm hk)
    · intro b2 hlt hne
      unfold FS.getPlayer
      rw [playIterateTurn_players]
      dsimp only
      rw [getD_set_self _ _ hj]
      exact handAt_setHand_other _ _ hb hlt hne
  · -- rotating-queue model
    obtain ⟨tps, tnh, tro⟩ := t
    unfold CS.attack at hok2
    split at hok2
    · cases hok2
    rename_i hg1
    split at hok2
    · cases hok2
    rename_i hg2
    dsimp only at hok2
    split at hok2
    · cases hok2
    rename_i hg3
    push_neg at hg1 hg2
    obtain ⟨hci0, hcilen⟩ := hg1
    obtain ⟨hca, hcb⟩ := hg2
    obtain ⟨c, rfl⟩ : ∃ c, ci = c + 1 := ⟨ci - 1, by omega⟩
    cases tps with
    | nil => simp at hcilen
    | cons p rest =>
      dsimp only at hwf hcilen hca hcb
      simp only [List.length_cons] at hcilen
      have hmem : (CS.handAt ((p :: rest).getD (c + 1) ⟨0, []⟩).hands cb
            + CS.handAt ((p :: rest).getD 0 ⟨0, []⟩).hands ca) % tro
          ∈ (CS.attackedDefender ⟨p :: rest, tnh, tro⟩ (c + 1) ca cb).hands := by
        unfold CS.attackedDefender
        have hlen : cb < ((p :: rest).getD (c + 1) ⟨0, []⟩).hands.length := by
          omega
        have hget := List.get?_set_eq_of_lt
          ((CS.handAt ((p :: rest).getD (c + 1) ⟨0, []⟩).hands cb
            + CS.handAt ((p :: rest).getD 0 ⟨0, []⟩).hands ca) % tro)
          (l := ((p :: rest).getD (c + 1) ⟨0, []⟩).hands) (n := cb) hlen
        have hmem0 := List.get?_mem hget
        exact ((List.perm_insertionSort _ _).mem_iff).mpr hmem0
      split at hok2
      · -- defender eliminated and removed
        rename_i helim
        cases hok2
        refine ⟨?_, hmem, Or.inl helim⟩
        unfold CS.iterateTurn
        dsimp only
        rw [List.getD_cons_zero]
        exact getLast_rotate_set_erase p rest c _
      · -- defender survives
        rename_i helim
        cases hok2
        refine ⟨?_, hmem, Or.inr ?_⟩
        · unfold CS.iterateTurn
          dsimp only
          rw [List.getD_cons_zero]
          exact getLast_rotate_set p rest c _
        · unfold CS.iterateTurn
          dsimp only
          have hc : c < rest.length := by
            omega
          have hidx : c + 1 - 1 = c := by omega
          rw [hidx]
          exact get_rotate_set p rest c _ hc

/-- C1 witness: the attack theorem applied to the opening attack of the
default game in both models. -/
theorem c1_attack_wrap_arithmetic_witness :
    FS.handAt (FS.getPlayer { i := 1, players := [⟨0, (1, 1)⟩, ⟨1, (2, 1)⟩] } 1).hands 0
      = (FS.handAt (FS.getPlayer (FS.mkInitial 1) 1).hands 0
          + FS.handAt (FS.getPlayer (FS.mkInitial 1) 0).hands 0) % 5
    ∧ ({ players := [⟨1, [1, 2]⟩, ⟨0, [1, 1]⟩], nHands := 2, rollover := 5 } : CS.CState).players.getLast?
      = some (CS.initial.players.getD 0 ⟨0, []⟩) :=
  ⟨(c1_attack_wrap_arithmetic 5 (FS.mkInitial 1)
      { i := 1, players := [⟨0, (1, 1)⟩, ⟨1, (2, 1)⟩] } 0 1 0 0 (by decide)
      CS.initial { players := [⟨1, [1, 2]⟩, ⟨0, [1, 1]⟩], nHands := 2, rollover := 5 }
      1 0 0 (by decide) (by decide)).1.1,
   (c1_attack_wrap_arithmetic 5 (FS.mkInitial 1)
      { i := 1, players := [⟨0, (1, 1)⟩, ⟨1, (2, 1)⟩] } 0 1 0 0 (by decide)
      CS.initial { players := [⟨1, [1, 2]⟩, ⟨0, [1, 1]⟩], nHands := 2, rollover := 5 }
      1 0 0 (by decide) (by decide)).2.1⟩

/-! ### Helper lemmas for the ranking driver -/

theorem mapError_ok {ε ε2 α : Type} {x : Except ε α} {f : ε → ε2} {a : α}
    (h : x.mapError f = .ok a) : x = .ok a := by
  cases x with
  | ok b => simpa [Except.mapError] using h
  | error e => simp [Except.mapError] at h

/-- Replacing a player's hands (keeping its id) does not change the list of
ids. -/
theorem map_id_set_hands (l : List FS.FPlayer) (j : Nat) (hands2 : Nat × Nat) :
    ((l.set j { l.getD j ⟨0, (0, 0)⟩ with hands := hands2 }).map (fun p => p.id))
      = l.map (fun p => p.id) := by
  apply List.ext_get?
  intro k
  rw [List.get?_map, List.get?_map]
  by_cases hk : k = j
  · subst hk
    by_cases hj : k < l.length
    · rw [List.get?_set_eq_of_lt _ hj]
      have hsome : l.get? k = some (l.get ⟨k, hj⟩) := List.get?_eq_get hj
      have hgd : l.getD k ⟨0, (0, 0)⟩ = l.get ⟨k, hj⟩ := by
        simp [List.getD, List.getElem?_eq_getElem hj]
      rw [hsome, hgd]
      rfl
    · rw [List.set_eq_of_length_le (by omega)]
  · rw [List.get?_set_ne _ _ (Ne.symm hk)]

/-- `play_action` never adds or removes a player id: the fixed roster's id
list is invariant under every successful action. -/
theorem playAction_map_id {R : Nat} {s s2 : FS.FState} {act : FS.GAction}
    (h : FS.playAction R s act = .ok s2) :
    s2.players.map (fun p => p.id) = s.players.map (fun p => p.id) := by
  unfold FS.playAction at h
  split at h
  · cases h
  split at h
  · cases h
  cases act with
  | attack i j a b =>
    have h2 := mapError_ok h
    unfold FS.playAttack at h2
    split at h2
    · cases h2
    split at h2
    · cases h2
    split at h2
    · cases h2
    dsimp only at h2
    split at h2
    · cases h2
    cases h2
    rw [playIterateTurn_players]
    exact map_id_set_hands s.players j _
  | splitA i h0 h1 =>
    have h2 := mapError_ok h
    unfold FS.playSplit at h2
    split at h2
    · cases h2
    split at h2
    · cases h2
    split at h2
    · cases h2
    split at h2
    · cases h2
    cases h2
    rw [playIterateTurn_players]
    exact map_id_set_hands s.players i _

/-- Folding identity writes over the rank array leaves it unchanged. -/
theorem foldl_set_const (v : Nat) :
    ∀ (ids ranks : List Nat), (∀ id2 ∈ ids, ranks.set id2 v = ranks) →
      ids.foldl (fun rs id2 => rs.set id2 v) ranks = ranks := by
  intro ids
  induction ids with
  | nil => intro ranks _; rfl
  | cons x xs ih =>
    intro ranks hall
    have hx : ranks.set x v = ranks := hall x (by simp)
    show (List.foldl _ (ranks.set x v) xs) = ranks
    rw [hx]
    exact ih ranks (fun id2 hid2 => hall id2 (by simp [hid2]))

/-- The ranking loop keeps the whole array at the sentinel value: the
roster's id set never changes, so every iteration writes the initial player
count into every id's rank. -/
theorem getRankingsLoop_const (R : Nat) :
    ∀ (acts : List FS.GAction) (s : FS.FState),
      (s.players.map (fun p => p.id)).Nodup →
      (∀ x ∈ s.players.map (fun p => p.id), x < s.players.length) →
      GD.getRankingsLoop R s acts
          (List.replicate s.players.length s.players.length)
        = List.replicate s.players.length s.players.length := by
  intro acts
  induction acts with
  | nil => intro s _ _; rfl
  | cons act rest ih =>
    intro s hnodup hlt
    unfold GD.getRankingsLoop
    split
    · rename_i hguard
      cases hplay : FS.playAction R s act with
      | error e => rfl
      | ok s2 =>
        have hmap := playAction_map_id hplay
        have hlen : s2.players.length = s.players.length := by
          have := congrArg List.length hmap
          simpa using this
        have hids : GD.playerIds s2 = s2.players.map (fun p => p.id) := by
          unfold GD.playerIds
          exact List.Nodup.dedup (by rw [hmap]; exact hnodup)
        have hidlen : (GD.playerIds s2).length = s.players.length := by
          rw [hids, hmap]
          simp
        have hupd : GD.updateRanks
            (List.replicate s.players.length s.players.length) (GD.playerIds s2)
            = List.replicate s.players.length s.players.length := by
          unfold GD.updateRanks
          rw [hidlen]
          exact foldl_set_const _ _ _ (fun id2 _ => List.set_replicate_self)
        dsimp only
        rw [hupd]
        have h2 := ih s2 (by rw [hmap]; exact hnodup)
          (by rw [hmap, hlen]; exact hlt)
        rw [hlen] at h2
        exact h2
    · rfl

/-- C6: in the driver's ranking computation the roster (the id set of the
fixed player array) never loses an id, so the condition on removed ids is
vacuous, and every id — never having been removed — keeps the sentinel
value `N` (the number of players): for every action sequence and every
finished or cycle-terminated run of the loop, the returned rank array is
identically the sentinel. -/
theorem c6_rankings_sentinel (R : Nat) (s : FS.FState) (acts : List FS.GAction)
    (hnodup : (s.players.map (fun p => p.id)).Nodup)
    (hlt : ∀ x ∈ s.players.map (fun p => p.id), x < s.players.length) :
    (∀ act s2, FS.playAction R s act = .ok s2 →
        s2.players.map (fun p => p.id) = s.players.map (fun p => p.id))
    ∧ GD.getRankings R s acts
        = List.replicate s.players.length s.players.length :=
  ⟨fun _ _ h => playAction_map_id h,
   by unfold GD.getRankings; exact getRankingsLoop_const R acts s hnodup hlt⟩

/-- C6 witness: the short default game - the loop returns the sentinel
array `[2, 2]`. -/
theorem c6_rankings_sentinel_witness :
    GD.getRankings 5 (FS.mkInitial 1)
        [.attack 0 1 1 1, .attack 1 0 1 1, .attack 0 1 1 1]
      = [2, 2] :=
  (c6_rankings_sentinel 5 (FS.mkInitial 1)
      [.attack 0 1 1 1, .attack 1 0 1 1, .attack 0 1 1 1]
      (by decide) (by decide)).2

/-! ### Helper lemmas for `min_by_key` -/

theorem minByKeyAux_spec {α : Type} (f : α → Nat) :
    ∀ (xs : List α) (best : α),
      MC.minByKeyAux f best xs ∈ best :: xs
      ∧ (∀ y ∈ best :: xs, f (MC.minByKeyAux f best xs) ≤ f y)
      ∧ ∃ l1 l2, best :: xs = l1 ++ MC.minByKeyAux f best xs :: l2
          ∧ ∀ y ∈ l1, f (MC.minByKeyAux f best xs) < f y := by
  intro xs
  induction xs with
  | nil =>
    intro best
    refine ⟨by simp [MC.minByKeyAux], ?_, [], [], by simp [MC.minByKeyAux], by simp⟩
    intro y hy
    simp [MC.minByKeyAux] at hy ⊢
    rw [hy]
  | cons x xs ih =>
    intro best
    have hstep : MC.minByKeyAux f best (x :: xs)
        = MC.minByKeyAux f (if f x < f best then x else best) xs := rfl
    rw [hstep]
    by_cases hlt : f x < f best
    · rw [if_pos hlt]
      obtain ⟨hmem, hmin, l1, l2, heq, hstrict⟩ := ih x
      have hminx : f (MC.minByKeyAux f x xs) ≤ f x := hmin x (List.mem_cons_self x xs)
      refine ⟨List.mem_cons_of_mem best hmem, ?_, best :: l1, l2, ?_, ?_⟩
      · intro y hy
        rcases List.mem_cons.mp hy with rfl | h
        · omega
        · exact hmin y h
      · rw [List.cons_append, ← heq]
      · intro y hy
        rcases List.mem_cons.mp hy with rfl | h
        · omega
        · exact hstrict y h
    · rw [if_neg hlt]
      obtain ⟨hmem, hmin, l1, l2, heq, hstrict⟩ := ih best
      have hminb : f (MC.minByKeyAux f best xs) ≤ f best :=
        hmin best (List.mem_cons_self best xs)
      have hbx : f best ≤ f x := Nat.not_lt.mp hlt
      refine ⟨?_, ?_, ?_⟩
      · rcases List.mem_cons.mp hmem with h | h
        · exact List.mem_cons.mpr (Or.inl h)
        · exact List.mem_cons_of_mem best (List.mem_cons_of_mem x h)
      · intro y hy
        rcases List.mem_cons.mp hy with rfl | h
        · exact hminb
        · rcases List.mem_cons.mp h with rfl | h2
          · omega
          · exact hmin y (List.mem_cons_of_mem best h2)
      · cases l1 with
        | nil =>
          simp only [List.nil_append] at heq
          injection heq with e1 e2
          refine ⟨[], x :: xs, ?_, by simp⟩
          rw [List.nil_append, ← e1]
        | cons h1 l1t =>
          injection heq with e1 e2
          have hrb : f (MC.minByKeyAux f best xs) < f best := by
            have h3 := hstrict h1 (List.mem_cons_self h1 l1t)
            rw [← e1] at h3
            exact h3
          refine ⟨best :: x :: l1t, l2, ?_, ?_⟩
          · show best :: x :: xs = best :: x :: (l1t ++ MC.minByKeyAux f best xs :: l2)
            nth_rewrite 1 [e2]
            rfl
          · intro y hy
            rcases List.mem_cons.mp hy with rfl | h
            · exact hrb
            · rcases List.mem_cons.mp h with rfl | h2
              · omega
              · exact hstrict y (List.mem_cons_of_mem h1 h2)

/-- Rust's `min_by_key`: on a non-empty list the result is the earliest
element attaining the minimal key. -/
theorem minByKey_spec {α : Type} (f : α → Nat) (l : List α) (hne : l ≠ []) :
    ∃ r, MC.minByKey f l = some r ∧ r ∈ l ∧ (∀ y ∈ l, f r ≤ f y)
      ∧ ∃ l1 l2, l = l1 ++ r :: l2 ∧ ∀ y ∈ l1, f r < f y := by
  cases l with
  | nil => exact absurd rfl hne
  | cons x xs =>
    obtain ⟨hmem, hmin, hsplit⟩ := minByKeyAux_spec f xs x
    exact ⟨MC.minByKeyAux f x xs, rfl, hmem, hmin, hsplit⟩

/-- C8: both Monte-Carlo variants return the action whose aggregated
rollout score — maximum observed rank in the controller variant, sum of
observed ranks in the strategies variant — is minimal over the legal
actions, and among equally minimal actions the one appearing earliest in
the `iter_actions()` enumeration (every earlier action has a strictly
larger aggregate). -/
theorem c8_monte_carlo_earliest_minimum (R nSims : Nat)
    (r : FS.GAction → Nat → Nat) (s : FS.FState)
    (hne : FS.iterActions R s ≠ []) (hsims : 0 < nSims) :
    (∃ a, MC.getActionMCMax R nSims r s = some a
      ∧ a ∈ FS.iterActions R s
      ∧ (∀ b ∈ FS.iterActions R s, MC.aggMax nSims (r a) ≤ MC.aggMax nSims (r b))
      ∧ ∃ l1 l2, FS.iterActions R s = l1 ++ a :: l2
          ∧ ∀ b ∈ l1, MC.aggMax nSims (r a) < MC.aggMax nSims (r b))
    ∧ (∃ a, MC.getActionMCSum R nSims r s = some a
      ∧ a ∈ FS.iterActions R s
      ∧ (∀ b ∈ FS.iterActions R s, MC.aggSum nSims (r a) ≤ MC.aggSum nSims (r b))
      ∧ ∃ l1 l2, FS.iterActions R s = l1 ++ a :: l2
          ∧ ∀ b ∈ l1, MC.aggSum nSims (r a) < MC.aggSum nSims (r b)) := by
  constructor
  · obtain ⟨a, h1, h2, h3, h4⟩ :=
      minByKey_spec (fun act => MC.aggMax nSims (r act)) (FS.iterActions R s) hne
    exact ⟨a, h1, h2, h3, h4⟩
  · obtain ⟨a, h1, h2, h3, h4⟩ :=
      minByKey_spec (fun act => MC.aggSum nSims (r act)) (FS.iterActions R s) hne
    exact ⟨a, h1, h2, h3, h4⟩

/-- C8 witness: the Monte-Carlo theorem applied to the initial position
with one rollout per action and a constant rollout outcome. -/
theorem c8_monte_carlo_earliest_minimum_witness :
    ∃ a, MC.getActionMCMax 5 1 (fun _ _ => 0) (FS.mkInitial 1) = some a
      ∧ a ∈ FS.iterActions 5 (FS.mkInitial 1)
      ∧ (∀ b ∈ FS.iterActions 5 (FS.mkInitial 1),
          MC.aggMax 1 ((fun _ _ => 0) a) ≤ MC.aggMax 1 ((fun _ _ => 0) b))
      ∧ ∃ l1 l2, FS.iterActions 5 (FS.mkInitial 1) = l1 ++ a :: l2
          ∧ ∀ b ∈ l1, MC.aggMax 1 ((fun _ _ => 0) a) < MC.aggMax 1 ((fun _ _ => 0) b) :=
  (c8_monte_carlo_earliest_minimum 5 1 (fun _ _ => 0) (FS.mkInitial 1)
      (by decide) (by decide)).1

/-! ### The engine invariant is established and preserved -/

theorem getD_mem {l : List α} {n : Nat} (d : α) (h : n < l.length) : l.getD n d ∈ l := by
  rw [List.getD_eq_getElem l d h]
  exact List.getElem_mem h

theorem aliveIndexes_mem {s : FS.FState} {k : Nat} (h : k ∈ FS.aliveIndexes s) :
    k < s.players.length ∧ ¬ FS.isEliminated (FS.getPlayer s k) = true := by
  unfold FS.aliveIndexes at h
  have h2 := List.mem_filter.mp h
  exact ⟨List.mem_range.mp h2.1, of_decide_eq_true h2.2⟩

/-- After `play_iterate_turn` the mover index is either unchanged or a
valid alive index of the (unchanged) roster. -/
theorem playIterateTurn_i (mid : FS.FState) :
    (FS.playIterateTurn mid).i = mid.i
    ∨ ((FS.playIterateTurn mid).i < mid.players.length
      ∧ ¬ FS.isEliminated (FS.getPlayer mid (FS.playIterateTurn mid).i) = true) := by
  unfold FS.playIterateTurn
  split
  · rename_i hc
    right
    dsimp only
    have hpos : 0 < (FS.aliveIndexes mid).length := by
      unfold FS.aliveCount at hc
      omega
    have hlt : (mid.i + 1) % FS.aliveCount mid < (FS.aliveIndexes mid).length := by
      unfold FS.aliveCount
      exact Nat.mod_lt _ hpos
    exact aliveIndexes_mem (getD_mem 0 hlt)
  · left
    rfl

theorem inv_initial {R f : Nat} (hf0 : 0 < f) (hfR : f < R) : FS.Inv R (FS.mkInitial f) := by
  refine ⟨rfl, by simp [FS.mkInitial], ?_, ?_⟩
  · intro p hp
    rcases List.mem_cons.mp hp with rfl | hp2
    · exact ⟨hfR, hfR⟩
    · rcases List.mem_cons.mp hp2 with rfl | hp3
      · exact ⟨hfR, hfR⟩
      · simp at hp3
  · simp [FS.isEliminated, FS.getPlayer, FS.mkInitial]
    omega

theorem getD_set_ne (l : List α) {j k : Nat} (x d : α) (h : j ≠ k) :
    (l.set j x).getD k d = l.getD k d := by
  simp [List.getD, List.getElem?_set_ne h]

/-- If the mid-state (after the hand update, before the turn advance)
satisfies the structural conditions, the advanced state satisfies the
invariant. -/
theorem inv_of_mid {R : Nat} (mid : FS.FState)
    (hlen : mid.players.length = 2)
    (hvals : ∀ p ∈ mid.players, p.hands.1 < R ∧ p.hands.2 < R)
    (hiOld : mid.i < 2)
    (haliveOld : ¬ FS.isEliminated (FS.getPlayer mid mid.i) = true) :
    FS.Inv R (FS.playIterateTurn mid) := by
  have hp := playIterateTurn_players mid
  rcases playIterateTurn_i mid with hcase | ⟨hlt2, halive2⟩
  · refine ⟨by rw [hp]; exact hlen, by rw [hcase]; exact hiOld,
      by rw [hp]; exact hvals, ?_⟩
    unfold FS.getPlayer
    rw [hp, hcase]
    exact haliveOld
  · refine ⟨by rw [hp]; exact hlen, by rw [← hlen]; exact hlt2,
      by rw [hp]; exact hvals, ?_⟩
    unfold FS.getPlayer
    rw [hp]
    exact halive2

/-- Every successful `play_action` preserves the engine invariant. -/
theorem inv_step {R : Nat} {s s2 : FS.FState} {act : FS.GAction}
    (hR : 2 ≤ R) (hinv : FS.Inv R s) (h : FS.playAction R s act = .ok s2) :
    FS.Inv R s2 := by
  obtain ⟨hlen, hi, hvals, halive⟩ := hinv
  unfold FS.playAction at h
  split at h
  · cases h
  rename_i hterm
  split at h
  · cases h
  rename_i hturn
  cases act with
  | attack i j a b =>
    have hio : i = s.i := by
      by_contra hne
      exact hturn (by simpa [FS.GAction.getI] using hne)
    have h2 := mapError_ok h
    unfold FS.playAttack at h2
    split at h2
    · cases h2
    rename_i hg1
    split at h2
    · cases h2
    rename_i hg2
    split at h2
    · cases h2
    rename_i hg3
    dsimp only at h2
    split at h2
    · cases h2
    rename_i hg4
    cases h2
    push_neg at hg1 hg2
    apply inv_of_mid
    · simpa using hlen
    · intro p hp
      rcases List.mem_or_eq_of_mem_set hp with hp2 | rfl
      · exact hvals p hp2
      · have hjv := hvals (FS.getPlayer s j) (getD_mem _ hg1.2)
        unfold FS.setHand
        by_cases hb : b = 0
        · simp only [hb, if_pos]
          exact ⟨Nat.mod_lt _ (by omega), hjv.2⟩
        · simp only [hb, if_neg, ite_false]
          exact ⟨hjv.1, Nat.mod_lt _ (by omega)⟩
    · exact hi
    · show ¬ FS.isEliminated (FS.getPlayer _ s.i) = true
      unfold FS.getPlayer
      dsimp only
      rw [getD_set_ne _ _ _ (by omega : j ≠ s.i)]
      exact halive
  | splitA i h0 h1 =>
    have hio : i = s.i := by
      by_contra hne
      exact hturn (by simpa [FS.GAction.getI] using hne)
    have h2 := mapError_ok h
    unfold FS.playSplit at h2
    split at h2
    · cases h2
    rename_i hg1
    split at h2
    · cases h2
    rename_i hg2
    split at h2
    · cases h2
    rename_i hg3
    split at h2
    · cases h2
    rename_i hg4
    cases h2
    rw [not_not] at hg4
    apply inv_of_mid
    · simpa using hlen
    · intro p hp
      rcases List.mem_or_eq_of_mem_set hp with hp2 | rfl
      · exact hvals p hp2
      · exact ⟨hg4.2.1, hg4.2.2.2⟩
    · exact hi
    · show ¬ FS.isEliminated (FS.getPlayer _ s.i) = true
      unfold FS.getPlayer FS.isEliminated
      dsimp only
      rw [hio, getD_set_self _ _ (by omega : s.i < s.players.length)]
      simp
      omega

/-- The invariant holds in every reachable state. -/
theorem inv_reach {R f : Nat} {s : FS.FState} (hR : 2 ≤ R) (hf0 : 0 < f) (hfR : f < R)
    (h : FS.Reach R f s) : FS.Inv R s := by
  induction h with
  | init => exact inv_initial hf0 hfR
  | step _ hplay ih => exact inv_step hR ih hplay

/-- C5: in every reachable non-terminal position of the shipped two-player
configuration, every action produced by `iter_actions()` is accepted by
`play_action` (it returns `Ok`, never an error). -/
theorem c5_enumerated_actions_succeed (R f : Nat) (s : FS.FState) (act : FS.GAction)
    (hR : 2 ≤ R) (hf0 : 0 < f) (hfR : f < R)
    (hreach : FS.Reach R f s) (hterm : 2 ≤ FS.aliveCount s)
    (hmem : act ∈ FS.iterActions R s) :
    ∃ s2, FS.playAction R s act = .ok s2 := by
  obtain ⟨hlen, hi, hvals, halive⟩ := inv_reach hR hf0 hfR hreach
  obtain ⟨hal0, hal1⟩ := two_alive_of_count hlen hterm
  unfold FS.iterActions at hmem
  rcases List.mem_append.mp hmem with hA | hS
  · -- attack action
    unfold FS.iterAttackActions at hA
    obtain ⟨j, hj, hrest⟩ := List.mem_flatMap.mp hA
    obtain ⟨a, ha, hb0⟩ := List.mem_flatMap.mp hrest
    obtain ⟨b, hb, rfl⟩ := List.mem_map.mp hb0
    have hj2 := List.mem_filter.mp hj
    have hjlen : j < s.players.length := List.mem_range.mp hj2.1
    have hij : s.i ≠ j := of_decide_eq_true hj2.2
    have hdalive : ¬ FS.isEliminated (FS.getPlayer s j) = true := by
      rcases (by omega : j = 0 ∨ j = 1) with rfl | rfl
      · exact hal0
      · exact hal1
    have hm2 : (FS.getPlayer s s.i).hands.2 ≠ 0 :=
      fun hc => halive ((isEliminated_iff _).mpr hc)
    have hd2 : (FS.getPlayer s j).hands.2 ≠ 0 :=
      fun hc => hdalive ((isEliminated_iff _).mpr hc)
    have hava := aliveFingers_val_ne hm2 ha
    have havb := aliveFingers_val_ne hd2 hb
    have haa := aliveFingers_mem_lt ha
    have hbb := aliveFingers_mem_lt hb
    unfold FS.playAction
    rw [if_neg (by omega)]
    rw [if_neg (by simp [FS.GAction.getI])]
    show ∃ s2, (FS.playAttack R s s.i j a b).mapError _ = .ok s2
    unfold FS.playAttack
    rw [if_neg (by omega)]
    rw [if_neg (by omega)]
    rw [if_neg hij]
    dsimp only
    rw [if_neg (not_or.mpr ⟨hava, havb⟩)]
    exact ⟨_, rfl⟩
  · -- split action
    unfold FS.iterSplitActions at hS
    dsimp only at hS
    obtain ⟨h, hfil0, rfl⟩ := List.mem_map.mp hS
    have hfil := List.mem_filter.mp hfil0
    have hneq : FS.sortPair (FS.getPlayer s s.i).hands ≠ FS.sortPair h :=
      of_decide_eq_true hfil.2
    obtain ⟨av, hav, rfl⟩ := List.mem_map.mp hfil.1
    obtain ⟨k, hk, rfl⟩ := List.mem_map.mp hav
    have hkr := List.mem_range.mp hk
    have hmv := hvals (FS.getPlayer s s.i) (getD_mem _ (by omega))
    have hsum : FS.sumPair (FS.getPlayer s s.i).hands
        = (FS.getPlayer s s.i).hands.1 + (FS.getPlayer s s.i).hands.2 := rfl
    have hT2R : FS.sumPair (FS.getPlayer s s.i).hands < 2 * R := by omega
    have hRT : R ≤ FS.sumPair (FS.getPlayer s s.i).hands := by
      by_contra hc
      have hmm : FS.sumPair (FS.getPlayer s s.i).hands % R
          = FS.sumPair (FS.getPlayer s s.i).hands := Nat.mod_eq_of_lt (by omega)
      omega
    have hmod : FS.sumPair (FS.getPlayer s s.i).hands % R
        = FS.sumPair (FS.getPlayer s s.i).hands - R := by
      rw [Nat.mod_eq_sub_mod hRT]
      exact Nat.mod_eq_of_lt (by omega)
    have hh1 : 1 ≤ max (FS.sumPair (FS.getPlayer s s.i).hands % R + 1) 1 + k := by
      omega
    have hh2 : max (FS.sumPair (FS.getPlayer s s.i).hands % R + 1) 1 + k < R := by
      omega
    have hh3 : 1 ≤ FS.sumPair (FS.getPlayer s s.i).hands
        - (max (FS.sumPair (FS.getPlayer s s.i).hands % R + 1) 1 + k) := by
      omega
    have hh4 : FS.sumPair (FS.getPlayer s s.i).hands
        - (max (FS.sumPair (FS.getPlayer s s.i).hands % R + 1) 1 + k) < R := by
      omega
    have hseq : FS.sumPair (FS.getPlayer s s.i).hands
        = max (FS.sumPair (FS.getPlayer s s.i).hands % R + 1) 1 + k
          + (FS.sumPair (FS.getPlayer s s.i).hands
            - (max (FS.sumPair (FS.getPlayer s s.i).hands % R + 1) 1 + k)) := by
      omega
    unfold FS.playAction
    split_ifs with hc1 hc2
    · exact absurd hc1 (by omega)
    · exact absurd hc2 (by simp [FS.GAction.getI])
    · dsimp only
      unfold FS.playSplit
      split_ifs with hs1 hs2 hs3 hs4 <;>
        first
          | exact ⟨_, rfl⟩
          | exact absurd rfl hs1
          | exact absurd hs2 hneq
          | exact absurd hseq hs3
          | exact absurd ⟨hh1, hh2, hh3, hh4⟩ hs4
          | exact absurd hs3 (not_not_intro hseq)
          | exact absurd hseq hs2
          | exact absurd hseq hs4
          | exact absurd rfl hs2
          | exact absurd ⟨hh1, hh2, hh3, hh4⟩ hs3

/-- C5 witness: the first enumerated attack of the initial position is
accepted. -/
theorem c5_enumerated_actions_succeed_witness :
    ∃ s2, FS.playAction 5 (FS.mkInitial 1) (.attack 0 1 0 0) = .ok s2 :=
  c5_enumerated_actions_succeed 5 1 (FS.mkInitial 1) (.attack 0 1 0 0)
    (by decide) (by decide) (by decide) FS.Reach.init (by decide) (by decide)

/-! ### Helper lemmas for undo -/

theorem setHand_setHand (h : Nat × Nat) (b v w : Nat) :
    FS.setHand (FS.setHand h b v) b w = FS.setHand h b w := by
  by_cases hb : b = 0 <;> simp [FS.setHand, hb]

theorem setHand_handAt (h : Nat × Nat) (b : Nat) :
    FS.setHand h b (FS.handAt h b) = h := by
  by_cases hb : b = 0 <;> simp [FS.setHand, FS.handAt, hb]

theorem handAt_lt {h : Nat × Nat} {R : Nat} (h1 : h.1 < R) (h2 : h.2 < R) (k : Nat) :
    FS.handAt h k < R := by
  unfold FS.handAt
  split <;> assumption

theorem set_getD_self (l : List α) {j : Nat} (d : α) (h : j < l.length) :
    l.set j (l.getD j d) = l := by
  apply List.ext_get?
  intro k
  by_cases hk : k = j
  · subst hk
    rw [List.get?_set_eq_of_lt _ h, List.get?_eq_get h]
    simp [List.getD, List.getElem?_eq_getElem h]
  · exact List.get?_set_ne _ _ (Ne.symm hk)

theorem aliveIndexes_congr {x y : FS.FState} (h : x.players = y.players) :
    FS.aliveIndexes x = FS.aliveIndexes y := by
  unfold FS.aliveIndexes FS.getPlayer
  rw [h]

theorem aliveCount_congr {x y : FS.FState} (h : x.players = y.players) :
    FS.aliveCount x = FS.aliveCount y := by
  unfold FS.aliveCount
  rw [aliveIndexes_congr h]

theorem mod_roundtrip {R d atk : Nat} (hR : 0 < R) (hd : d < R) (hatk : atk ≤ R) :
    ((d + atk) % R + (R - atk)) % R = d := by
  rw [Nat.mod_add_mod]
  have h1 : d + atk + (R - atk) = d + R := by omega
  rw [h1, Nat.add_mod_right, Nat.mod_eq_of_lt hd]

theorem getD_zero_one (k : Nat) (hk : k < 2) : ([0, 1] : List Nat).getD k 0 = k := by
  rcases (by omega : k = 0 ∨ k = 1) with rfl | rfl <;> rfl

/-- Undo of a non-game-ending attack restores the state exactly
(two-player configuration, all hand values below the rollover). -/
theorem undoAttack_restores {R : Nat} (hR : 2 ≤ R) {s s2 : FS.FState} {i j a b : Nat}
    (hlen : s.players.length = 2) (hsi : s.i < 2)
    (hvals : ∀ p ∈ s.players, p.hands.1 < R ∧ p.hands.2 < R)
    (hbefore : 2 ≤ FS.aliveCount s)
    (hok : FS.playAttack R s i j a b = .ok s2)
    (hafter : 2 ≤ FS.aliveCount s2) :
    FS.undoAttack R s2 i j a b = .ok s := by
  unfold FS.playAttack at hok
  split at hok
  · cases hok
  rename_i hg1
  split at hok
  · cases hok
  rename_i hg2
  split at hok
  · cases hok
  rename_i hg3
  dsimp only at hok
  split at hok
  · cases hok
  rename_i hg4
  push_neg at hg1 hg2 hg4
  have hs2 : s2 = FS.playIterateTurn ⟨s.i, s.players.set j
      ⟨(FS.getPlayer s j).id, FS.setHand (FS.getPlayer s j).hands b
        ((FS.handAt (FS.getPlayer s j).hands b + FS.handAt (FS.getPlayer s i).hands a) % R)⟩⟩ := by
    cases hok
    rfl
  have hs2players : s2.players = s.players.set j
      ⟨(FS.getPlayer s j).id, FS.setHand (FS.getPlayer s j).hands b
        ((FS.handAt (FS.getPlayer s j).hands b + FS.handAt (FS.getPlayer s i).hands a) % R)⟩ := by
    rw [hs2, playIterateTurn_players]
  have hs2len : s2.players.length = 2 := by
    rw [hs2players]
    simp [hlen]
  have hPi : FS.getPlayer s2 i = FS.getPlayer s i := by
    unfold FS.getPlayer
    rw [hs2players]
    exact getD_set_ne _ _ _ (by omega)
  have hPj : FS.getPlayer s2 j = ⟨(FS.getPlayer s j).id, FS.setHand (FS.getPlayer s j).hands b
      ((FS.handAt (FS.getPlayer s j).hands b + FS.handAt (FS.getPlayer s i).hands a) % R)⟩ := by
    unfold FS.getPlayer
    rw [hs2players]
    exact getD_set_self _ _ hg1.2
  have hvi := hvals (FS.getPlayer s i) (getD_mem _ hg1.1)
  have hvj := hvals (FS.getPlayer s j) (getD_mem _ hg1.2)
  have hatkR : FS.handAt (FS.getPlayer s i).hands a < R := handAt_lt hvi.1 hvi.2 a
  have hdR : FS.handAt (FS.getPlayer s j).hands b < R := handAt_lt hvj.1 hvj.2 b
  have hdef2 : FS.handAt (FS.getPlayer s2 j).hands b
      = (FS.handAt (FS.getPlayer s j).hands b + FS.handAt (FS.getPlayer s i).hands a) % R := by
    rw [hPj]
    exact handAt_setHand_self _ _ _
  have hupdval : (FS.handAt (FS.getPlayer s2 j).hands b
      + (R - FS.handAt (FS.getPlayer s2 i).hands a)) % R
      = FS.handAt (FS.getPlayer s j).hands b := by
    rw [hdef2, hPi]
    exact mod_roundtrip (by omega) hdR (by omega)
  -- the mover index after the play
  have hafterM : 2 ≤ FS.aliveCount ⟨s.i, s.players.set j
      ⟨(FS.getPlayer s j).id, FS.setHand (FS.getPlayer s j).hands b
        ((FS.handAt (FS.getPlayer s j).hands b + FS.handAt (FS.getPlayer s i).hands a) % R)⟩⟩ := by
    rw [hs2] at hafter
    rw [aliveCount_congr (playIterateTurn_players _)] at hafter
    exact hafter
  have hMlen : ((⟨s.i, s.players.set j
      ⟨(FS.getPlayer s j).id, FS.setHand (FS.getPlayer s j).hands b
        ((FS.handAt (FS.getPlayer s j).hands b + FS.handAt (FS.getPlayer s i).hands a) % R)⟩⟩)
      : FS.FState).players.length = 2 := by
    simp [hlen]
  have hAIM := aliveIndexes_two hMlen (two_alive_of_count hMlen hafterM).1
    (two_alive_of_count hMlen hafterM).2
  have hcM : FS.aliveCount ⟨s.i, s.players.set j
      ⟨(FS.getPlayer s j).id, FS.setHand (FS.getPlayer s j).hands b
        ((FS.handAt (FS.getPlayer s j).hands b + FS.handAt (FS.getPlayer s i).hands a) % R)⟩⟩ = 2 := by
    unfold FS.aliveCount
    rw [hAIM]
    rfl
  have hs2i : s2.i = (s.i + 1) % 2 := by
    rw [hs2]
    unfold FS.playIterateTurn
    rw [if_pos (by rw [hcM])]
    dsimp only
    rw [hAIM, hcM]
    exact getD_zero_one _ (by omega)
  -- now run the undo
  unfold FS.undoAttack
  rw [if_neg (by rw [hs2len]; omega)]
  rw [if_neg (by omega)]
  rw [if_neg hg3]
  dsimp only
  rw [if_neg (by rw [hupdval]; omega)]
  refine congrArg Except.ok ?_
  have hrestore : s2.players.set j ⟨(FS.getPlayer s2 j).id,
      FS.setHand (FS.getPlayer s2 j).hands b
        ((FS.handAt (FS.getPlayer s2 j).hands b
          + (R - FS.handAt (FS.getPlayer s2 i).hands a)) % R)⟩ = s.players := by
    have hnd2 : (⟨(FS.getPlayer s2 j).id,
        FS.setHand (FS.getPlayer s2 j).hands b
          ((FS.handAt (FS.getPlayer s2 j).hands b
            + (R - FS.handAt (FS.getPlayer s2 i).hands a)) % R)⟩ : FS.FPlayer)
        = FS.getPlayer s j := by
      rw [hupdval, hPj]
      show (⟨(FS.getPlayer s j).id,
        FS.setHand (FS.setHand (FS.getPlayer s j).hands b _) b
          (FS.handAt (FS.getPlayer s j).hands b)⟩ : FS.FPlayer) = FS.getPlayer s j
      rw [setHand_setHand, setHand_handAt]
    rw [hnd2, hs2players, List.set_set]
    exact set_getD_self _ _ hg1.2
  rw [hrestore, hs2i]
  unfold FS.undoIterateTurn
  have hAIU : FS.aliveIndexes ⟨(s.i + 1) % 2, s.players⟩ = [0, 1] := by
    rw [aliveIndexes_congr (rfl : ((⟨(s.i + 1) % 2, s.players⟩)
        : FS.FState).players = s.players)]
    exact aliveIndexes_two hlen (two_alive_of_count hlen hbefore).1
      (two_alive_of_count hlen hbefore).2
  have hcU : FS.aliveCount ⟨(s.i + 1) % 2, s.players⟩ = 2 := by
    unfold FS.aliveCount
    rw [hAIU]
    rfl
  rw [if_pos (by rw [hcU])]
  dsimp only
  rw [hAIU, hcU]
  simp only [List.length_cons, hlen]
  have hival : ([0, 1] : List Nat).reverse.getD ((2 - (s.i + 1) % 2) % 2) 0 = s.i := by
    rcases (by omega : s.i = 0 ∨ s.i = 1) with h | h <;> rw [h] <;> rfl
  rw [hival]

/-- Undo of a split restores the state exactly, provided the pre-split
hands contain no dead hand (two-player configuration). -/
theorem undoSplit_restores {R : Nat} {s s2 : FS.FState} {i : Nat} {h0 h1 : Nat × Nat}
    (hlen : s.players.length = 2) (hsi : s.i < 2) (hi : i < 2)
    (hr0 : 1 ≤ h0.1 ∧ h0.1 < R ∧ 1 ≤ h0.2 ∧ h0.2 < R)
    (hok : FS.playSplit R s i h0 h1 = .ok s2) :
    FS.undoSplit R s2 i h0 h1 = .ok s := by
  unfold FS.playSplit at hok
  split at hok
  · cases hok
  rename_i hg1
  split at hok
  · cases hok
  rename_i hg2
  split at hok
  · cases hok
  rename_i hg3
  split at hok
  · cases hok
  rename_i hg4
  rw [not_not] at hg1 hg3 hg4
  have hilen : i < s.players.length := by omega
  have hs2 : s2 = FS.playIterateTurn ⟨s.i, s.players.set i
      ⟨(FS.getPlayer s i).id, h1⟩⟩ := by
    cases hok
    rfl
  have hs2players : s2.players = s.players.set i ⟨(FS.getPlayer s i).id, h1⟩ := by
    rw [hs2, playIterateTurn_players]
  have hs2len : s2.players.length = 2 := by
    rw [hs2players]
    simp [hlen]
  have hPi : FS.getPlayer s2 i = ⟨(FS.getPlayer s i).id, h1⟩ := by
    unfold FS.getPlayer
    rw [hs2players]
    exact getD_set_self _ _ hilen
  -- alive pattern is unchanged by the hand swap
  have hAIeq : FS.aliveIndexes (⟨s.i, s.players.set i ⟨(FS.getPlayer s i).id, h1⟩⟩ : FS.FState)
      = FS.aliveIndexes s := by
    unfold FS.aliveIndexes
    dsimp only
    rw [List.length_set]
    apply List.filter_congr
    intro k hk
    by_cases hki : k = i
    · subst hki
      unfold FS.getPlayer
      dsimp only
      rw [getD_set_self _ _ hilen]
      have e1 : FS.isEliminated ⟨(s.players.getD k ⟨0, (0, 0)⟩).id, h1⟩ = false := by
        simp [FS.isEliminated]
        omega
      have e2 : FS.isEliminated (s.players.getD k ⟨0, (0, 0)⟩) = false := by
        have hh : (s.players.getD k ⟨0, (0, 0)⟩).hands = h0 := hg1.symm
        unfold FS.isEliminated
        rw [hh]
        simp only [beq_eq_false_iff_ne, ne_eq]
        omega
      rw [e1, e2]
    · unfold FS.getPlayer
      dsimp only
      rw [getD_set_ne _ _ _ (by omega)]
  have hACeq : FS.aliveCount (⟨s.i, s.players.set i ⟨(FS.getPlayer s i).id, h1⟩⟩ : FS.FState)
      = FS.aliveCount s := by
    unfold FS.aliveCount
    rw [hAIeq]
  -- run the undo
  unfold FS.undoSplit
  rw [if_neg (by rw [hPi]; simp)]
  rw [if_neg hg2]
  rw [if_neg (not_not_intro hg3)]
  rw [if_neg (not_not_intro hr0)]
  refine congrArg Except.ok ?_
  have hrestore : s2.players.set i ⟨(FS.getPlayer s2 i).id, h0⟩ = s.players := by
    rw [hs2players, List.set_set]
    have hped : (⟨(FS.getPlayer s2 i).id, h0⟩ : FS.FPlayer) = FS.getPlayer s i := by
      rw [hPi, hg1]
    rw [hped]
    exact set_getD_self _ _ hilen
  rw [hrestore]
  by_cases hc : 2 ≤ FS.aliveCount s
  · -- the play rotated: rotate back
    have hAIs := aliveIndexes_two hlen (two_alive_of_count hlen hc).1
      (two_alive_of_count hlen hc).2
    have hACs : FS.aliveCount s = 2 := by
      unfold FS.aliveCount
      rw [hAIs]
      rfl
    have hs2i : s2.i = (s.i + 1) % 2 := by
      rw [hs2]
      unfold FS.playIterateTurn
      rw [if_pos (by rw [hACeq, hACs])]
      dsimp only
      rw [hAIeq, hAIs, hACeq, hACs]
      exact getD_zero_one _ (by omega)
    rw [hs2i]
    unfold FS.undoIterateTurn
    have hAIU : FS.aliveIndexes ⟨(s.i + 1) % 2, s.players⟩ = [0, 1] := by
      rw [aliveIndexes_congr (rfl : ((⟨(s.i + 1) % 2, s.players⟩)
          : FS.FState).players = s.players)]
      exact hAIs
    have hACU : FS.aliveCount ⟨(s.i + 1) % 2, s.players⟩ = 2 := by
      unfold FS.aliveCount
      rw [hAIU]
      rfl
    rw [if_pos (by rw [hACU])]
    dsimp only
    rw [hAIU, hACU]
    simp only [List.length_cons, hlen]
    have hival : ([0, 1] : List Nat).reverse.getD ((2 - (s.i + 1) % 2) % 2) 0 = s.i := by
      rcases (by omega : s.i = 0 ∨ s.i = 1) with h | h <;> rw [h] <;> rfl
    rw [hival]
  · -- game already decided: neither direction rotates the turn
    have hs2i : s2.i = s.i := by
      rw [hs2]
      unfold FS.playIterateTurn
      rw [if_neg (by rw [hACeq]; omega)]
    rw [hs2i]
    unfold FS.undoIterateTurn
    have hACU2 : FS.aliveCount (⟨s.i, s.players⟩ : FS.FState) = FS.aliveCount s := rfl
    rw [if_neg (by rw [hACU2]; omega)]

/-- C9 (amended): for the shipped two-player configuration, undo inverts
play whenever the move does not end the game.  If `play_attack` succeeds
and at least two players are still alive afterwards, `undo_attack` with the
same arguments succeeds and restores the original state exactly, mover
index included; if `play_split` succeeds from pre-split hands whose values
all lie in `[1, ROLLOVER)`, so does `undo_split`.  (The original claim,
covering game-ending attacks and splits away from a dead hand, is refuted
by the separate counterexample.) -/
theorem c9_undo_inverts_play {R : Nat} (hR : 2 ≤ R) (s : FS.FState)
    (hlen : s.players.length = 2) (hsi : s.i < 2)
    (hvals : ∀ p ∈ s.players, p.hands.1 < R ∧ p.hands.2 < R) :
    (∀ s2 i j a b, 2 ≤ FS.aliveCount s → FS.playAttack R s i j a b = .ok s2 →
        2 ≤ FS.aliveCount s2 → FS.undoAttack R s2 i j a b = .ok s)
    ∧ ∀ s2 i h0 h1, i < 2 →
        (1 ≤ (h0 : Nat × Nat).1 ∧ h0.1 < R ∧ 1 ≤ h0.2 ∧ h0.2 < R) →
        FS.playSplit R s i h0 h1 = .ok s2 → FS.undoSplit R s2 i h0 h1 = .ok s :=
  ⟨fun _ _ _ _ _ hbefore hok hafter =>
      undoAttack_restores hR hlen hsi hvals hbefore hok hafter,
   fun _ _ _ _ hi hr0 hok => undoSplit_restores hlen hsi hi hr0 hok⟩

/-- Witness for C9: the opening attack in the initial position and a
`(1, 3) → (2, 2)` split are both undone exactly. -/
theorem c9_undo_inverts_play_witness :
    FS.undoAttack 5 { i := 1, players := [⟨0, (1, 1)⟩, ⟨1, (2, 1)⟩] } 0 1 0 0
      = .ok (FS.mkInitial 1)
    ∧ FS.undoSplit 5 { i := 1, players := [⟨0, (2, 2)⟩, ⟨1, (1, 1)⟩] } 0 (1, 3) (2, 2)
      = .ok { i := 0, players := [⟨0, (1, 3)⟩, ⟨1, (1, 1)⟩] } := by
  constructor
  · exact (c9_undo_inverts_play (by decide) (FS.mkInitial 1) (by decide) (by decide)
      (by decide)).1 { i := 1, players := [⟨0, (1, 1)⟩, ⟨1, (2, 1)⟩] } 0 1 0 0
      (by decide) (by decide) (by decide)
  · exact (c9_undo_inverts_play (by decide)
      { i := 0, players := [⟨0, (1, 3)⟩, ⟨1, (1, 1)⟩] } (by decide) (by decide)
      (by decide)).2 { i := 1, players := [⟨0, (2, 2)⟩, ⟨1, (1, 1)⟩] } 0 (1, 3) (2, 2)
      (by decide) (by decide) (by decide)

/-! ### Next-mover lemmas for the rotating-queue engine (C7, amended) -/

theorem cs_split_next_mover (s : CS.CState) (nh0 : List Nat) (t2 : CS.CState)
    (hok : CS.split s nh0 = .ok t2) :
    t2.players.head?.map (fun p => p.id) = SpecSide.nextSurvivingId s t2 := by
  obtain ⟨ps, nH, ro⟩ := s
  unfold CS.split at hok
  dsimp only at hok
  split at hok
  · cases hok
  split at hok
  · cases hok
  split at hok
  · cases hok
  cases hok
  cases ps with
  | nil =>
    simp [CS.iterateTurn, SpecSide.nextSurvivingId, List.rotate]
  | cons p rest =>
    rw [show (((p :: rest).set 0
        { (p :: rest).getD 0 ⟨0, []⟩ with hands := CS.sortHands nh0 }))
      = ({ p with hands := CS.sortHands nh0 } :: rest) from rfl]
    unfold CS.iterateTurn SpecSide.nextSurvivingId
    dsimp only
    rw [rotate_one_cons]
    cases rest with
    | nil => simp [List.find?]
    | cons q rest2 =>
      simp [List.find?_cons_of_pos, List.contains_cons]

theorem cs_next_mover_core (p q : CS.CPlayer) (rest2 : List CS.CPlayer) (nH ro : Nat)
    (i : Nat) (hi0 : i ≠ 0)
    (hnodup : ((p :: q :: rest2).map (fun r => r.id)).Nodup)
    (nd : CS.CPlayer) (hid : nd.id = ((p :: q :: rest2).getD i ⟨0, []⟩).id) :
    (CS.iterateTurn ⟨if CS.isEliminated nd then ((p :: q :: rest2).set i nd).eraseIdx i
        else (p :: q :: rest2).set i nd, nH, ro⟩).players.head?.map (fun r => r.id)
      = SpecSide.nextSurvivingId ⟨p :: q :: rest2, nH, ro⟩
          (CS.iterateTurn ⟨if CS.isEliminated nd then ((p :: q :: rest2).set i nd).eraseIdx i
              else (p :: q :: rest2).set i nd, nH, ro⟩) := by
  obtain ⟨k, rfl⟩ : ∃ k, i = k + 1 := ⟨i - 1, by omega⟩
  simp only [List.map_cons, List.nodup_cons, List.mem_cons, List.mem_map] at hnodup
  push_neg at hnodup
  obtain ⟨⟨hpq, hprest⟩, hqrest, hrest⟩ := hnodup
  by_cases helim : CS.isEliminated nd = true
  · rw [if_pos helim]
    cases k with
    | zero =>
      rw [show ((p :: q :: rest2).set 1 nd).eraseIdx 1 = p :: rest2 from rfl]
      unfold CS.iterateTurn SpecSide.nextSurvivingId
      dsimp only
      rw [rotate_one_cons]
      rw [show List.drop 1 (p :: q :: rest2) ++ List.take 1 (p :: q :: rest2)
          = q :: (rest2 ++ [p]) from by simp]
      have hpredq : ((rest2 ++ [p]).map (fun x => x.id)).contains q.id = false := by
        simp only [List.contains_eq_any_beq, List.any_eq_false, List.mem_map, beq_iff_eq]
        rintro x ⟨y, hy, rfl⟩ he
        rcases List.mem_append.mp hy with hy | hy
        · exact hqrest y hy he.symm
        · simp only [List.mem_singleton] at hy
          subst hy
          exact hpq (he.symm ▸ rfl)
      rw [List.find?_cons_of_neg _ (by simp only [hpredq]; decide)]
      cases rest2 with
      | nil =>
        simp only [List.nil_append]
        rw [List.find?_cons_of_pos _ (by simp)]
        rfl
      | cons r rest3 =>
        rw [show (r :: rest3) ++ [p] = r :: (rest3 ++ [p]) from rfl]
        rw [List.find?_cons_of_pos _ (by simp)]
        rfl
    | succ k2 =>
      rw [show ((p :: q :: rest2).set (k2 + 2) nd).eraseIdx (k2 + 2)
          = p :: q :: (rest2.set k2 nd).eraseIdx k2 from rfl]
      unfold CS.iterateTurn SpecSide.nextSurvivingId
      dsimp only
      rw [rotate_one_cons]
      rw [show List.drop 1 (p :: q :: rest2) ++ List.take 1 (p :: q :: rest2)
          = q :: (rest2 ++ [p]) from by simp]
      rw [List.find?_cons_of_pos _ (by simp)]
      rfl
  · rw [if_neg helim]
    cases k with
    | zero =>
      rw [show (p :: q :: rest2).set 1 nd = p :: nd :: rest2 from rfl]
      unfold CS.iterateTurn SpecSide.nextSurvivingId
      dsimp only
      rw [rotate_one_cons]
      rw [show List.drop 1 (p :: q :: rest2) ++ List.take 1 (p :: q :: rest2)
          = q :: (rest2 ++ [p]) from by simp]
      rw [List.find?_cons_of_pos _ (by simp [hid])]
      simp [hid]
    | succ k2 =>
      rw [show (p :: q :: rest2).set (k2 + 2) nd = p :: q :: rest2.set k2 nd from rfl]
      unfold CS.iterateTurn SpecSide.nextSurvivingId
      dsimp only
      rw [rotate_one_cons]
      rw [show List.drop 1 (p :: q :: rest2) ++ List.take 1 (p :: q :: rest2)
          = q :: (rest2 ++ [p]) from by simp]
      rw [List.find?_cons_of_pos _ (by simp)]
      rfl

theorem cs_attack_next_mover (s : CS.CState)
    (hnodup : (s.players.map (fun p => p.id)).Nodup)
    (i a b : Nat) (t2 : CS.CState) (hok : CS.attack s i a b = .ok t2) :
    t2.players.head?.map (fun p => p.id) = SpecSide.nextSurvivingId s t2 := by
  obtain ⟨ps, nH, ro⟩ := s
  unfold CS.attack at hok
  split at hok
  · cases hok
  rename_i hg1
  split at hok
  · cases hok
  rename_i hg2
  dsimp only at hok
  split at hok
  · cases hok
  rename_i hg3
  push_neg at hg1
  obtain ⟨hi0, hilen⟩ := hg1
  cases ps with
  | nil => simp at hilen
  | cons p rest =>
    cases rest with
    | nil =>
      simp at hilen
      omega
    | cons q rest2 =>
      cases hok
      exact cs_next_mover_core p q rest2 nH ro i hi0 hnodup _ rfl

/-- C7 (amended): the next-surviving-mover property holds for the
rotating-queue engine (`src/chopsticks_state.rs`), for any roster with
distinct player ids, any number of players and any pattern of
eliminations: after every successful attack or split the new front player
is the first player of the prior rotation order, starting just past the
prior mover and wrapping, that still belongs to the new roster.  (The
fixed-array engine violates the original claim for three or more players;
see the separate counterexample.) -/
theorem c7_rotating_engine_next_mover (s : CS.CState)
    (hnodup : (s.players.map (fun p => p.id)).Nodup) :
    (∀ i a b t2, CS.attack s i a b = .ok t2 →
        t2.players.head?.map (fun p => p.id) = SpecSide.nextSurvivingId s t2)
    ∧ ∀ nh t2, CS.split s nh = .ok t2 →
        t2.players.head?.map (fun p => p.id) = SpecSide.nextSurvivingId s t2 :=
  ⟨fun i a b t2 hok => cs_attack_next_mover s hnodup i a b t2 hok,
   fun nh t2 hok => cs_split_next_mover s nh t2 hok⟩

/-- Witness for C7: in the default two-player position, after the opening
attack the new mover is player 1, the next survivor after player 0. -/
theorem c7_rotating_engine_next_mover_witness :
    (CS.initial.players.map (fun p => p.id)).Nodup
    ∧ (({ players := [⟨1, [1, 2]⟩, ⟨0, [1, 1]⟩], nHands := 2, rollover := 5 }
        : CS.CState).players.head?.map (fun p => p.id)
      = SpecSide.nextSurvivingId CS.initial
          { players := [⟨1, [1, 2]⟩, ⟨0, [1, 1]⟩], nHands := 2, rollover := 5 }) :=
  ⟨by decide,
   (c7_rotating_engine_next_mover CS.initial (by decide)).1 1 0 0
     { players := [⟨1, [1, 2]⟩, ⟨0, [1, 1]⟩], nHands := 2, rollover := 5 } (by decide)⟩
